import Mathlib

/-!
Shallow embedding of the complaint-reduction core of the redditScraper
repository, together with proofs checking the specification's claims.

Sources embedded:
- `test_language_model_processor.py` (`SimpleLanguageModelProcessor`, the
  lexical strategy): namespace `SLMP`.
- `language_model_processor.py` (`LanguageModelProcessor`, the embedding
  strategy): namespace `LMP`.
- `reddit_feedback_analyzer.py` (`MultiPlatformFeedbackAnalyzer.analyze_feedback`
  aggregation step): namespace `FB`.

Strings are modelled by Lean `String`/`List Char`; Python text operations
(`re.sub`, `str.split`, `str.lower`, `in`, `startswith`) are transcribed at the
character level below.  Python `dict` objects (insertion ordered, unique keys)
are modelled as association lists with first-occurrence update.
-/

/-! ### Character-level text utilities (Python semantics) -/

/-- Python whitespace for `\s` / `str.split()`: space, tab, newline, vertical
tab, form feed, carriage return. -/
def pyIsSpace (c : Char) : Bool :=
  c = ' ' || c = '\t' || c = '\n' || c = '\x0b' || c = '\x0c' || c = '\r'

/-- Python `\w` on ASCII input: alphanumeric or underscore. -/
def pyIsWord (c : Char) : Bool :=
  c.isAlphanum || c = '_'

/-- Sentence-terminal punctuation used by both cleaning and sentence splitting. -/
def isSentPunct (c : Char) : Bool :=
  c = '.' || c = '!' || c = '?'

/-- `l.isPrefL h`: is `n` a prefix of `h` (Boolean, character lists). -/
def isPrefL : List Char → List Char → Bool
  | [], _ => true
  | _ :: _, [] => false
  | a :: as, b :: bs => a = b && isPrefL as bs

/-- Python `needle in haystack`: contiguous-substring test on character lists. -/
def isSubL (n : List Char) : List Char → Bool
  | [] => isPrefL n []
  | c :: t => isPrefL n (c :: t) || isSubL n t

/-- ASCII lowercasing, the semantics of Python `str.lower()` on ASCII text. -/
def lowerL (l : List Char) : List Char := l.map Char.toLower

/-- Longest non-whitespace prefix. -/
def takeNonSpace : List Char → List Char
  | [] => []
  | c :: cs => if pyIsSpace c then [] else c :: takeNonSpace cs

/-- Drop the longest non-whitespace prefix. -/
def dropNonSpace : List Char → List Char
  | [] => []
  | c :: cs => if pyIsSpace c then c :: cs else dropNonSpace cs

/-- Split on whitespace characters keeping empty groups (auxiliary for
`pySplitL`). -/
def splitWsGroups (l : List Char) : List (List Char) :=
  l.foldr
    (fun c acc =>
      if pyIsSpace c then [] :: acc
      else
        match acc with
        | [] => [[c]]
        | t :: ts => (c :: t) :: ts)
    []

/-- Python `str.split()` with no argument: whitespace-delimited tokens, empties
dropped. -/
def pySplitL (l : List Char) : List (List Char) :=
  (splitWsGroups l).filter (· ≠ [])

/-- Split on individual sentence-punctuation characters, keeping empty groups.
After the strip-and-drop-empties step performed by the source this agrees with
Python `re.split(r'[.!?]+', text)`. -/
def splitPunctGroups (l : List Char) : List (List Char) :=
  l.foldr
    (fun c acc =>
      if isSentPunct c then [] :: acc
      else
        match acc with
        | [] => [[c]]
        | t :: ts => (c :: t) :: ts)
    []

/-- Python `str.strip()`: remove leading and trailing whitespace. -/
def pyStripL (l : List Char) : List Char :=
  ((l.dropWhile pyIsSpace).reverse.dropWhile pyIsSpace).reverse

/-- `' '.join(tokens)` on character-list tokens. -/
def joinTokens : List (List Char) → List Char
  | [] => []
  | [t] => t
  | t :: ts => t ++ ' ' :: joinTokens ts

/-- Does `l` start with `"http"` followed by one non-whitespace character, or
`"www"` followed by one non-whitespace character?  This is where the regex
`http\S+|www\S+|https\S+` matches (the `https` alternative is subsumed by
`http\S+`, whose greedy `\S+` always extends the match to the next
whitespace). -/
def urlStart (l : List Char) : Bool :=
  match l with
  | 'h' :: 't' :: 't' :: 'p' :: d :: _ => !pyIsSpace d
  | 'w' :: 'w' :: 'w' :: d :: _ => !pyIsSpace d
  | _ => false

/-- One left-to-right pass of `re.sub(r'http\S+|www\S+|https\S+', '', text)`:
at a match, delete up to the next whitespace character and continue there.
Structured with explicit fuel (one unit per consumed character) so that the
definition reduces by `decide`/`rfl`; `stripURLs` supplies sufficient fuel. -/
def stripURLsGo : Nat → List Char → List Char
  | 0, _ => []
  | _ + 1, [] => []
  | fuel + 1, c :: cs =>
    if urlStart (c :: cs) then stripURLsGo fuel (dropNonSpace cs)
    else c :: stripURLsGo fuel cs

/-- URL removal, the first step of both cleaning functions. -/
def stripURLs (l : List Char) : List Char :=
  stripURLsGo l.length l

/-! ### `SimpleLanguageModelProcessor` (test_language_model_processor.py),
the lexical strategy -/

namespace SLMP

/-- `self.complaint_keywords`: category → trigger keywords, in declaration
order. -/
def complaint_keywords : List (String × List String) :=
  [ ("camera", ["camera", "photo", "picture", "sensor", "lens", "telephoto",
      "periscope", "ultrawide", "selfie"]),
    ("performance", ["processor", "chip", "snapdragon", "dimensity",
      "performance", "speed", "fast", "slow", "lag", "stutter"]),
    ("battery", ["battery", "charge", "charging", "power", "endurance",
      "life", "drain"]),
    ("storage", ["storage", "memory", "ram", "ufs", "space", "gb", "microsd",
      "sd card"]),
    ("display", ["screen", "display", "panel", "oled", "amoled", "brightness",
      "refresh rate", "hz", "resolution"]),
    ("design", ["design", "look", "ugly", "beautiful", "glyph", "light",
      "back", "camera module", "build"]),
    ("price", ["price", "expensive", "cheap", "value", "cost", "worth",
      "overpriced", "budget"]),
    ("software", ["software", "os", "android", "update", "bug", "glitch",
      "feature", "ui", "ux"]),
    ("hardware", ["button", "port", "usb", "jack", "speaker", "microphone",
      "fingerprint", "sensor"]) ]

/-- Characters kept by `_clean_text`'s `re.sub(r'[^\w\s.!?]', ' ', text)`. -/
def keptTextChar (c : Char) : Bool :=
  pyIsWord c || pyIsSpace c || isSentPunct c

/-- `_clean_text` on character lists: strip URLs, replace characters outside
`[\w\s.!?]` with a space, then `' '.join(text.split())`. -/
def cleanTextL (l : List Char) : List Char :=
  joinTokens (pySplitL ((stripURLs l).map (fun c => if keptTextChar c then c else ' ')))

/-- `SimpleLanguageModelProcessor._clean_text`. -/
def _clean_text (text : String) : String :=
  ⟨cleanTextL text.data⟩

/-- Per-category keyword-hit score of `_get_complaint_category`:
`sum(1 for keyword in keywords if keyword in text)` on the lowercased text. -/
def categoryScore (t : List Char) (kws : List String) : Nat :=
  (kws.filter (fun k => isSubL k.data t)).length

/-- `SimpleLanguageModelProcessor._get_complaint_category`.  `max` with a key
function in Python returns the first item attaining the maximum, which the
fold below reproduces by replacing the best candidate only on a strict
increase.  The `"other"` branch corresponds to `if not category_scores`, i.e.
an empty keyword table. -/
def _get_complaint_category (text : String) : String :=
  let t := lowerL text.data
  let scores := complaint_keywords.map (fun p => (p.1, categoryScore t p.2))
  match scores with
  | [] => "other"
  | s :: rest => (rest.foldl (fun best p => if best.2 < p.2 then p else best) s).1

/-- `complaint_indicators` of `_extract_complaint_summary`. -/
def complaint_indicators : List String :=
  ["bad", "poor", "terrible", "awful", "horrible", "disappointing", "worst",
   "issue", "problem", "bug", "glitch", "fault", "fail", "broken",
   "doesn\x27t work", "does not work", "not working", "lack of", "missing",
   "no ", "without", "expensive", "slow", "laggy", "buggy", "limited",
   "restricted", "difficult", "hard", "annoying", "weak", "short",
   "unreliable", "inconsistent", "unstable", "inadequate", "insufficient",
   "mediocre", "overpriced", "cheap", "flimsy", "uncomfortable",
   "worse", "inferior", "subpar", "below average", "disappointed",
   "frustrated", "annoyed", "upset", "complaint", "concern", "worry",
   "not worth", "waste", "regret", "should have", "would not recommend"]

/-- `positive_indicators` of `_extract_complaint_summary`. -/
def positive_indicators : List String :=
  ["great", "good", "excellent", "amazing", "perfect", "best", "love",
   "recommend", "happy", "satisfied", "impressed", "pleased", "enjoy",
   "worth", "value", "solid", "reliable", "consistent", "stable"]

/-- `any(pat in hay for pat in pats)` on a lowercased haystack. -/
def hasAny (pats : List String) (hayLower : List Char) : Bool :=
  pats.any (fun p => isSubL p.data hayLower)

/-- `self.complaint_keywords.get(category, [])`. -/
def lookupKeywords (category : String) : List String :=
  match complaint_keywords.find? (fun p => p.1 = category) with
  | some p => p.2
  | none => []

/-- The sentence list of `_extract_complaint_summary`:
`[s.strip() for s in re.split(r'[.!?]+', text) if s.strip()]`. -/
def pySentences (l : List Char) : List (List Char) :=
  ((splitPunctGroups l).map pyStripL).filter (· ≠ [])

/-- `5 <= len(sentence.split()) <= 25`. -/
def sizedSentence (s : List Char) : Bool :=
  5 ≤ (pySplitL s).length && (pySplitL s).length ≤ 25

/-- A sentence surviving the summary filter of the second pass: reasonably
sized, containing a category keyword and a complaint indicator. -/
def survivorSentence (keywords : List String) (s : List Char) : Bool :=
  sizedSentence s && hasAny keywords (lowerL s) && hasAny complaint_indicators (lowerL s)

/-- A sentence kept by the first pass: a survivor that additionally contains
no positive indicator. -/
def directComplaint (keywords : List String) (s : List Char) : Bool :=
  survivorSentence keywords s && !hasAny positive_indicators (lowerL s)

/-- Python `min(sentences, key=len)`: first sentence of minimal character
length, reproduced by replacing the best candidate only on a strict
decrease. -/
def minByLen (s : List Char) (rest : List (List Char)) : List Char :=
  rest.foldl (fun best x => if x.length < best.length then x else best) s

/-- `SimpleLanguageModelProcessor._extract_complaint_summary`.  Returns `none`
exactly where the Python function returns `None`. -/
def _extract_complaint_summary (text : String) (category : String) : Option String :=
  let t := cleanTextL text.data
  let sentences := pySentences t
  let keywords := lookupKeywords category
  match sentences.filter (directComplaint keywords) with
  | s :: rest => some ⟨minByLen s rest ++ ['.']⟩
  | [] =>
    match sentences.filter (survivorSentence keywords) with
    | s :: rest => some ⟨minByLen s rest ++ ['.']⟩
    | [] => none

/-- `SimpleLanguageModelProcessor._generate_concise_summary`.  The source
applies `.strip()` to the extraction result without a `None` guard; a `none`
result therefore models the `AttributeError` raised on the fall-through path,
and a `some` result carries the cleaned-up summary
(strip, whitespace collapse, terminal punctuation). -/
def _generate_concise_summary (text : String) (category : String) : Option String :=
  match _extract_complaint_summary text category with
  | none => none
  | some s =>
    let stripped := joinTokens (pySplitL (pyStripL s.data))
    if stripped ≠ [] && isSentPunct (stripped.getLastD ' ') then some ⟨stripped⟩
    else some ⟨stripped ++ ['.']⟩

/-- `SimpleLanguageModelProcessor._summarize_complaint`. -/
def _summarize_complaint (text : String) : Option String :=
  _generate_concise_summary text (_get_complaint_category text)

/-- The keyword-overlap set of `is_similar_complaint`:
`new_keywords.intersection(new_words).intersection(existing_words)` for the
(shared) category's keyword vocabulary, on lowercased texts. -/
def matchingKeywords (category : String) (nLower eLower : List Char) : List String :=
  (lookupKeywords category).filter
    (fun k => (pySplitL nLower).contains k.data && (pySplitL eLower).contains k.data)

/-- `SimpleLanguageModelProcessor.is_similar_complaint`. -/
def is_similar_complaint (newComplaint existingComplaint : String) : Bool :=
  let n := lowerL newComplaint.data
  let e := lowerL existingComplaint.data
  let newCat := _get_complaint_category ⟨n⟩
  let existingCat := _get_complaint_category ⟨e⟩
  if newCat ≠ existingCat then false
  else decide (2 ≤ (matchingKeywords newCat n e).length)

/-- The complaints dictionary: insertion-ordered association list from summary
to count, as a Python `dict` preserves. -/
abbrev Registry := List (String × Nat)

/-- `self.complaints[k] += 1`: bump the (unique) entry with key `k`. -/
def incrKey (k : String) : Registry → Registry
  | [] => []
  | p :: rest => if p.1 = k then (p.1, p.2 + 1) :: rest else p :: incrKey k rest

/-- `self.complaints[k] = v`: overwrite in place, or append a new key. -/
def setKey (k : String) (v : Nat) : Registry → Registry
  | [] => [(k, v)]
  | p :: rest => if p.1 = k then (k, v) :: rest else p :: setKey k v rest

/-- The matching loop of `process_complaint`: the first existing key that
`is_similar_complaint` accepts. -/
def findSimilar (summary : String) : Registry → Option String
  | [] => none
  | p :: rest =>
    if is_similar_complaint summary p.1 then some p.1 else findSimilar summary rest

/-- `SimpleLanguageModelProcessor.process_complaint` as a state transformer on
the complaints dictionary. -/
def process_complaint (st : Registry) (complaint : String) : Registry :=
  let cleaned := _clean_text complaint
  if cleaned = "" then st
  else
    match _extract_complaint_summary cleaned (_get_complaint_category cleaned) with
    | none => st
    | some summary =>
      match findSimilar summary st with
      | some k => incrKey k st
      | none => setKey summary 1 st

/-- Ingest a list of texts from a freshly initialised processor. -/
def runProcessor (texts : List String) : Registry :=
  texts.foldl process_complaint []

/-- A text is accepted (non-discarded) by `process_complaint` iff it cleans to
a non-empty string and yields a summary; this depends only on the text. -/
def accepted (t : String) : Bool :=
  _clean_text t ≠ "" &&
    (_extract_complaint_summary (_clean_text t) (_get_complaint_category (_clean_text t))).isSome

/-- Number of accepted texts in a batch. -/
def acceptedCount (ts : List String) : Nat :=
  (ts.filter accepted).length

/-- Sum of all complaint counts. -/
def totalCount (st : Registry) : Nat :=
  (st.map Prod.snd).sum

end SLMP

/-! ### `LanguageModelProcessor` (language_model_processor.py), the embedding
strategy.

`get_embedding` calls OpenAI's API; the embedding provider is modelled as a
pure (deterministic) function `oracle : String → List ℚ` supplied as a
parameter.  Because the provider is deterministic, the `self.embeddings`
cache — populated lazily in `is_similar_complaint` and at entry creation in
`process_complaint`, and read nowhere else — always holds exactly
`oracle text` for each cached `text`; the cache is therefore semantically
transparent and the lookups below apply `oracle` directly.  Vector components
are exact rationals; similarity values live in `ℝ`, and the IEEE `nan`
produced by `0.0/0.0` is modelled as `Option.none` (every comparison with
`nan` is false, matching the `none` branches below). -/

namespace LMP

/-- `np.dot` on equal-length vectors. -/
def dotQ (a b : List ℚ) : ℚ :=
  ((a.zip b).map (fun p => p.1 * p.2)).sum

/-- Squared Euclidean norm, `np.linalg.norm(a) ** 2`. -/
def normSq (a : List ℚ) : ℚ := dotQ a a

/-- `LanguageModelProcessor.cosine_similarity`:
`np.dot(a, b) / (np.linalg.norm(a) * np.linalg.norm(b))`.  The source has no
guard: when either norm is zero the float division yields `nan`, modelled as
`none`. -/
noncomputable def cosine_similarity (a b : List ℚ) : Option ℝ :=
  if normSq a = 0 ∨ normSq b = 0 then none
  else some ((dotQ a b : ℝ) / (Real.sqrt (normSq a) * Real.sqrt (normSq b)))

/-- One iteration of the comparison loop of `is_similar_complaint`:
`if similarity > max_similarity: max_similarity, most_similar = similarity, complaint`.
A `nan` similarity (`none`) never satisfies the strict comparison. -/
noncomputable def bestStep (newEmb : List ℚ) (oracle : String → List ℚ)
    (acc : ℝ × String) (complaint : String) : ℝ × String :=
  match cosine_similarity newEmb (oracle complaint) with
  | none => acc
  | some x => if acc.1 < x then (x, complaint) else acc

/-- `LanguageModelProcessor.is_similar_complaint`: returns
`(max_similarity >= 0.85, most_similar_complaint)`, starting the scan from
`max_similarity = -1`, `most_similar_complaint = ""`. -/
noncomputable def is_similar_complaint (oracle : String → List ℚ)
    (newComplaint : String) (existingComplaints : List String) : Bool × String :=
  if existingComplaints = [] then (false, "")
  else
    let r := existingComplaints.foldl (bestStep (oracle newComplaint) oracle) (-1, "")
    (decide (0.85 ≤ r.1), r.2)

/-- Characters kept by `_clean_complaint`'s `re.sub(r'[^\w\s]', ' ', text)`
(unlike `_clean_text`, sentence punctuation is not preserved). -/
def keptComplaintChar (c : Char) : Bool :=
  pyIsWord c || pyIsSpace c

/-- The cleaning pipeline of `_clean_complaint` before the length check. -/
def cleanComplaintCore (l : List Char) : List Char :=
  joinTokens (pySplitL ((stripURLs l).map (fun c => if keptComplaintChar c then c else ' ')))

/-- `LanguageModelProcessor._clean_complaint`: clean, then discard (return
`''`) any result with fewer than 3 whitespace-delimited tokens. -/
def _clean_complaint (text : String) : String :=
  let t := cleanComplaintCore text.data
  if (pySplitL t).length < 3 then "" else ⟨t⟩

/-- `LanguageModelProcessor.process_complaint` as a state transformer on the
complaints dictionary (association list, insertion ordered). -/
noncomputable def process_complaint (oracle : String → List ℚ)
    (st : SLMP.Registry) (complaintText : String) : SLMP.Registry :=
  let cleaned := _clean_complaint complaintText
  if cleaned = "" then st
  else
    let r := is_similar_complaint oracle cleaned (st.map Prod.fst)
    if r.1 then SLMP.incrKey r.2 st else SLMP.setKey cleaned 1 st

/-- Ingest a list of texts from a freshly initialised processor. -/
noncomputable def runProcessor (oracle : String → List ℚ) (texts : List String) :
    SLMP.Registry :=
  texts.foldl (process_complaint oracle) []

/-- A text is accepted by the embedding-strategy `process_complaint` iff it
survives `_clean_complaint`. -/
def accepted (t : String) : Bool := _clean_complaint t ≠ ""

/-- Number of accepted texts in a batch. -/
def acceptedCount (ts : List String) : Nat :=
  (ts.filter accepted).length

end LMP

/-! ### `MultiPlatformFeedbackAnalyzer.analyze_feedback`
(reddit_feedback_analyzer.py).

The OpenAI classification call is external: each post is modelled as already
carrying its parsed JSON response, an insertion-ordered list of
`(feature, type, summary)` triples.  The generic `except` around the per-post
body catches any exception raised while recording items; the state updates
already performed before the exception are kept and the remaining items of
that post are skipped, which the `Except`-valued single-item step below makes
explicit. -/

namespace FB

/-- `self.feature_categories`. -/
def feature_categories : List String :=
  ["design", "camera", "performance", "battery", "software features",
   "display", "price", "audio", "build quality"]

/-- `self.feedback_types`. -/
def feedback_types : List String :=
  ["missing_feature", "poor_compared_to_competitor", "unnecessary_feature",
   "awesome"]

/-- The keys of `self.feedback_by_source` as initialised in
`analyze_feedback`; incrementing any other key raises `KeyError`. -/
def sourceKeys : List String := ["reddit", "youtube", "twitter"]

/-- The prefixes rejected by the
`data['summary'].lower().startswith((...))` filter. -/
def emptySummaryMarkers : List String :=
  ["no specific", "no feedback", "no mention", "not provided", "no comments"]

/-- One classified feedback item of a parsed response:
`feature`, `data['type']`, `data['summary']` (a missing `type` or `summary`
behaves like `""`, which fails the same membership/truthiness checks). -/
structure Item where
  feature : String
  ftype : String
  summary : String

/-- One post presented to `analyze_feedback`: origin metadata and the parsed
classification response. -/
structure Post where
  title : String
  url : String
  source : String
  items : List Item

/-- The aggregation state: feedback matrix, per-source tally and detail
records (title, feature, feedback type, summary, url, source). -/
structure AggState where
  matrix : String → String → Nat
  bySource : String → Nat
  details : List (String × String × String × String × String × String)

/-- The freshly initialised state at the top of `analyze_feedback`. -/
def initState : AggState :=
  { matrix := fun _ _ => 0, bySource := fun _ => 0, details := [] }

/-- `data.get('summary')` is truthy and does not start with an
empty-feedback marker. -/
def summaryUsable (s : String) : Bool :=
  s ≠ "" && !(emptySummaryMarkers.any (fun m => isPrefL m.data (lowerL s.data)))

/-- Record one classified item, in source order: vocabulary validation, summary
check, then matrix increment, source-tally increment and detail append.
`Except.error` models the `KeyError` raised by
`self.feedback_by_source[post['source']] += 1` when the post's source tag is
not a tally key: the matrix increment has already happened, the detail record
is never appended, and the exception aborts the rest of the post. -/
def recordItem (p : Post) (st : AggState) (it : Item) : Except AggState AggState :=
  if feature_categories.contains it.feature && feedback_types.contains it.ftype then
    if summaryUsable it.summary then
      let m := fun f t =>
        if f = it.feature && t = it.ftype then st.matrix f t + 1 else st.matrix f t
      if sourceKeys.contains p.source then
        Except.ok
          { matrix := m,
            bySource := fun s => if s = p.source then st.bySource s + 1 else st.bySource s,
            details := st.details ++ [(p.title, it.feature, it.ftype, it.summary, p.url, p.source)] }
      else Except.error { st with matrix := m }
    else Except.ok st
  else Except.ok st

/-- Record a post's items in order; an exception ends the post early with the
state reached so far (the surrounding `except ...: continue`). -/
def recordItems (p : Post) (st : AggState) : List Item → AggState
  | [] => st
  | it :: rest =>
    match recordItem p st it with
    | Except.ok st' => recordItems p st' rest
    | Except.error st' => st'

/-- `analyze_feedback`: reinitialise the matrix, tally and detail list, then
process every post. -/
def analyze_feedback (posts : List Post) : AggState :=
  posts.foldl (fun st p => recordItems p st p.items) initState

/-- Sum over all cells of the feedback matrix. -/
def matrixTotal (st : AggState) : Nat :=
  (feature_categories.map (fun f => (feedback_types.map (st.matrix f)).sum)).sum

/-- Sum of the per-source tallies. -/
def tallyTotal (st : AggState) : Nat :=
  (sourceKeys.map st.bySource).sum

/-- An item passing the validation performed by `analyze_feedback`. -/
def validated (it : Item) : Bool :=
  feature_categories.contains it.feature && feedback_types.contains it.ftype &&
    summaryUsable it.summary

end FB

/-- Well-formedness of every reachable registry of the lexical processor:
counts are at least 1, and any entry with count at least 2 matches itself. -/
def GoodReg (st : SLMP.Registry) : Prop :=
  ∀ p ∈ st, 1 ≤ p.2 ∧ (2 ≤ p.2 → SLMP.is_similar_complaint p.1 p.1 = true)

/-! ### Token-counting lemmas

The discard law of the specification requires bounding the token count of
every sentence of a cleaned text by the token count of the whole text.  The
lemmas below establish that `pySplitL`-token counts are monotone under taking
contiguous substrings, that URL stripping never increases the token count, and
that `' '.join(text.split())` preserves the token list. -/

theorem splitWsGroups_cons (c : Char) (cs : List Char) :
    splitWsGroups (c :: cs) =
      if pyIsSpace c then [] :: splitWsGroups cs
      else
        match splitWsGroups cs with
        | [] => [[c]]
        | t :: ts => (c :: t) :: ts := rfl

theorem dropNonSpace_length_le (l : List Char) : (dropNonSpace l).length ≤ l.length := by
  induction l with
  | nil => simp [dropNonSpace]
  | cons c cs ih =>
    by_cases h : pyIsSpace c
    · simp [dropNonSpace, h]
    · simp only [dropNonSpace, h, if_false, Bool.false_eq_true]
      exact ih.trans (Nat.le_succ _)

theorem dropNonSpace_shape (l : List Char) :
    dropNonSpace l = [] ∨ ∃ c cs, dropNonSpace l = c :: cs ∧ pyIsSpace c = true := by
  induction l with
  | nil => left; rfl
  | cons c cs ih =>
    by_cases h : pyIsSpace c
    · right; exact ⟨c, cs, by simp [dropNonSpace, h], h⟩
    · simpa [dropNonSpace, h] using ih

theorem dropNonSpace_suffix (l : List Char) : dropNonSpace l <:+ l := by
  induction l with
  | nil => exact List.suffix_rfl
  | cons c cs ih =>
    by_cases h : pyIsSpace c
    · simp [dropNonSpace, h]
    · simp only [dropNonSpace, h, if_false, Bool.false_eq_true]
      exact ih.trans (List.suffix_cons c cs)

theorem takeNonSpace_chars (l : List Char) :
    ∀ c ∈ takeNonSpace l, c ∈ l ∧ pyIsSpace c = false := by
  induction l with
  | nil => simp [takeNonSpace]
  | cons c cs ih =>
    by_cases h : pyIsSpace c
    · simp [takeNonSpace, h]
    · intro d hd
      simp only [takeNonSpace, h, if_false, Bool.false_eq_true, List.mem_cons] at hd
      rcases hd with rfl | hd
      · exact ⟨List.mem_cons_self _ _, by simpa using h⟩
      · exact ⟨List.mem_cons_of_mem _ (ih d hd).1, (ih d hd).2⟩

/-- The first whitespace-split group of a list is its longest non-whitespace
prefix, and the remaining groups are the groups of the rest. -/
theorem splitWsGroups_structure (cs : List Char) :
    splitWsGroups cs = [] ∧ cs = [] ∨
      ∃ ts, splitWsGroups cs = takeNonSpace cs :: ts ∧
        ts.filter (· ≠ []) = pySplitL (dropNonSpace cs) := by
  induction cs with
  | nil => left; exact ⟨rfl, rfl⟩
  | cons c cs' ih =>
    right
    by_cases hc : pyIsSpace c
    · refine ⟨splitWsGroups cs', ?_, ?_⟩
      · rw [splitWsGroups_cons]; simp [hc, takeNonSpace]
      · simp only [dropNonSpace, hc, if_true]
        simp [pySplitL, splitWsGroups_cons, hc]
    · rcases ih with ⟨hG, rfl⟩ | ⟨ts, hG, hts⟩
      · refine ⟨[], ?_, ?_⟩
        · rw [splitWsGroups_cons]; simp [hc, hG, takeNonSpace]
        · simp [dropNonSpace, hc, pySplitL, splitWsGroups]
      · refine ⟨ts, ?_, ?_⟩
        · rw [splitWsGroups_cons]; simp [hc, hG, takeNonSpace]
        · simpa [dropNonSpace, hc] using hts

theorem pySplitL_nil : pySplitL [] = [] := rfl

theorem pySplitL_cons_space {c : Char} (h : pyIsSpace c = true) (cs : List Char) :
    pySplitL (c :: cs) = pySplitL cs := by
  simp [pySplitL, splitWsGroups_cons, h]

theorem pySplitL_cons_nonspace {c : Char} (h : pyIsSpace c = false) (cs : List Char) :
    pySplitL (c :: cs) = (c :: takeNonSpace cs) :: pySplitL (dropNonSpace cs) := by
  rcases splitWsGroups_structure cs with ⟨hG, rfl⟩ | ⟨ts, hG, hts⟩
  · simp [pySplitL, splitWsGroups_cons, hG, h, takeNonSpace, dropNonSpace]
  · simp only [pySplitL, splitWsGroups_cons, h, if_false, hG, Bool.false_eq_true]
    rw [List.filter_cons]
    simp only [ne_eq, List.cons_ne_nil, not_false_eq_true, decide_True, if_true]
    rw [hts]
    rfl

theorem tokens_le_one_add_drop (cs : List Char) :
    (pySplitL cs).length ≤ 1 + (pySplitL (dropNonSpace cs)).length := by
  cases cs with
  | nil => simp [pySplitL_nil, dropNonSpace]
  | cons c cs' =>
    by_cases h : pyIsSpace c
    · simp only [dropNonSpace, h, if_true]
      omega
    · rw [pySplitL_cons_nonspace (by simpa using h)]
      simp only [dropNonSpace, h, if_false, Bool.false_eq_true, List.length_cons]
      omega

theorem tokens_cons_le (c : Char) (cs : List Char) :
    (pySplitL cs).length ≤ (pySplitL (c :: cs)).length := by
  by_cases h : pyIsSpace c
  · rw [pySplitL_cons_space h]
  · rw [pySplitL_cons_nonspace (by simpa using h)]
    have := tokens_le_one_add_drop cs
    simp only [List.length_cons]
    omega

theorem tokens_append_left (u w : List Char) :
    (pySplitL w).length ≤ (pySplitL (u ++ w)).length := by
  induction u with
  | nil => simp
  | cons c u' ih =>
    rw [List.cons_append]
    exact ih.trans (tokens_cons_le c (u' ++ w))

theorem dropNonSpace_append (p v : List Char) :
    dropNonSpace (p ++ v) =
      if dropNonSpace p = [] then dropNonSpace v else dropNonSpace p ++ v := by
  induction p with
  | nil => simp [dropNonSpace]
  | cons c p' ih =>
    by_cases h : pyIsSpace c
    · simp [dropNonSpace, h]
    · simpa [dropNonSpace, h] using ih

theorem tokens_append_right_aux :
    ∀ n (p v : List Char), p.length ≤ n →
      (pySplitL p).length ≤ (pySplitL (p ++ v)).length := by
  intro n
  induction n with
  | zero =>
    intro p v hp
    rw [List.length_eq_zero.mp (Nat.le_zero.mp hp)]
    simp [pySplitL_nil]
  | succ n ih =>
    intro p v hp
    cases p with
    | nil => simp [pySplitL_nil]
    | cons c p' =>
      have hp' : p'.length ≤ n := by simpa using hp
      by_cases h : pyIsSpace c
      · rw [List.cons_append, pySplitL_cons_space h, pySplitL_cons_space h]
        exact ih p' v hp'
      · rw [List.cons_append, pySplitL_cons_nonspace (by simpa using h),
          pySplitL_cons_nonspace (by simpa using h)]
        simp only [List.length_cons, Nat.add_le_add_iff_right]
        rw [dropNonSpace_append]
        by_cases hd : dropNonSpace p' = []
        · simp [hd, pySplitL_nil]
        · rw [if_neg hd]
          exact ih (dropNonSpace p') v ((dropNonSpace_length_le p').trans hp')

theorem tokens_append_right (p v : List Char) :
    (pySplitL p).length ≤ (pySplitL (p ++ v)).length :=
  tokens_append_right_aux p.length p v le_rfl

theorem tokens_infix_le {p l : List Char} (h : p <:+: l) :
    (pySplitL p).length ≤ (pySplitL l).length := by
  obtain ⟨u, v, rfl⟩ := h
  rw [List.append_assoc]
  exact (tokens_append_right p v).trans (tokens_append_left u (p ++ v))

theorem splitPunctGroups_cons (c : Char) (cs : List Char) :
    splitPunctGroups (c :: cs) =
      if isSentPunct c then [] :: splitPunctGroups cs
      else
        match splitPunctGroups cs with
        | [] => [[c]]
        | t :: ts => (c :: t) :: ts := rfl

theorem splitPunctGroups_pieces (l : List Char) :
    (∀ s ∈ splitPunctGroups l, s <:+: l) ∧
      (∀ hd tl, splitPunctGroups l = hd :: tl → hd <+: l) := by
  induction l with
  | nil =>
    constructor
    · intro s hs; simp [splitPunctGroups] at hs
    · intro hd tl h; simp [splitPunctGroups] at h
  | cons c cs ih =>
    by_cases hc : isSentPunct c
    · constructor
      · intro s hs
        rw [splitPunctGroups_cons, if_pos hc, List.mem_cons] at hs
        rcases hs with rfl | hs
        · exact List.nil_infix
        · exact (ih.1 s hs).trans (List.suffix_cons c cs).isInfix
      · intro hd tl h
        rw [splitPunctGroups_cons, if_pos hc] at h
        cases h
        exact List.nil_prefix
    · rcases hG : splitPunctGroups cs with _ | ⟨t, ts⟩
      · constructor
        · intro s hs
          rw [splitPunctGroups_cons, if_neg hc, hG, List.mem_singleton] at hs
          subst hs
          exact ((List.prefix_cons_inj c).mpr List.nil_prefix).isInfix
        · intro hd tl h
          rw [splitPunctGroups_cons, if_neg hc, hG] at h
          cases h
          exact (List.prefix_cons_inj c).mpr List.nil_prefix
      · have hpre : c :: t <+: c :: cs :=
          (List.prefix_cons_inj c).mpr (ih.2 t ts hG)
        constructor
        · intro s hs
          rw [splitPunctGroups_cons, if_neg hc, hG, List.mem_cons] at hs
          rcases hs with rfl | hs
          · exact hpre.isInfix
          · exact (ih.1 s (hG ▸ List.mem_cons_of_mem t hs)).trans
              (List.suffix_cons c cs).isInfix
        · intro hd tl h
          rw [splitPunctGroups_cons, if_neg hc, hG] at h
          cases h
          exact hpre

theorem pyStripL_within (l : List Char) : pyStripL l <:+: l := by
  unfold pyStripL
  have h1 : l.dropWhile pyIsSpace <:+ l := List.dropWhile_suffix _
  have h2 : ((l.dropWhile pyIsSpace).reverse.dropWhile pyIsSpace).reverse <+:
      l.dropWhile pyIsSpace := by
    apply List.reverse_suffix.mp
    simpa using List.dropWhile_suffix (l := (l.dropWhile pyIsSpace).reverse) pyIsSpace
  exact h2.isInfix.trans h1.isInfix

theorem pySentences_tokens_le (l : List Char) :
    ∀ s ∈ SLMP.pySentences l, (pySplitL s).length ≤ (pySplitL l).length := by
  intro s hs
  unfold SLMP.pySentences at hs
  rw [List.mem_filter] at hs
  obtain ⟨hm, _⟩ := hs
  rw [List.mem_map] at hm
  obtain ⟨g, hg, rfl⟩ := hm
  exact tokens_infix_le ((pyStripL_within g).trans ((splitPunctGroups_pieces l).1 g hg))

theorem splitWsGroups_chars (l : List Char) :
    ∀ g ∈ splitWsGroups l, ∀ c ∈ g, c ∈ l ∧ pyIsSpace c = false := by
  induction l with
  | nil => simp [splitWsGroups]
  | cons c cs ih =>
    by_cases hc : pyIsSpace c
    · intro g hg d hd
      rw [splitWsGroups_cons, if_pos hc, List.mem_cons] at hg
      rcases hg with rfl | hg
      · simp at hd
      · exact ⟨List.mem_cons_of_mem _ (ih g hg d hd).1, (ih g hg d hd).2⟩
    · intro g hg d hd
      rw [splitWsGroups_cons, if_neg hc] at hg
      rcases hG : splitWsGroups cs with _ | ⟨t, ts⟩
      · rw [hG] at hg
        simp only [List.mem_singleton] at hg
        subst hg
        simp only [List.mem_singleton] at hd
        subst hd
        exact ⟨List.mem_cons_self _ _, by simpa using hc⟩
      · rw [hG] at hg
        simp only [List.mem_cons] at hg
        rcases hg with rfl | hg
        · simp only [List.mem_cons] at hd
          rcases hd with rfl | hd
          · exact ⟨List.mem_cons_self _ _, by simpa using hc⟩
          · have := ih t (hG ▸ List.mem_cons_self t ts) d hd
            exact ⟨List.mem_cons_of_mem _ this.1, this.2⟩
        · have := ih g (hG ▸ List.mem_cons_of_mem t hg) d hd
          exact ⟨List.mem_cons_of_mem _ this.1, this.2⟩

theorem pySplitL_chars (l : List Char) :
    ∀ t ∈ pySplitL l, t ≠ [] ∧ ∀ c ∈ t, c ∈ l ∧ pyIsSpace c = false := by
  intro t ht
  unfold pySplitL at ht
  rw [List.mem_filter] at ht
  refine ⟨by simpa using ht.2, fun c hc => splitWsGroups_chars l t ht.1 c hc⟩

theorem takeNonSpace_all {l : List Char} (h : ∀ c ∈ l, pyIsSpace c = false) :
    takeNonSpace l = l := by
  induction l with
  | nil => rfl
  | cons c cs ih =>
    have hc := h c (List.mem_cons_self _ _)
    simp only [takeNonSpace, hc, if_false, Bool.false_eq_true]
    rw [ih (fun d hd => h d (List.mem_cons_of_mem _ hd))]

theorem dropNonSpace_all {l : List Char} (h : ∀ c ∈ l, pyIsSpace c = false) :
    dropNonSpace l = [] := by
  induction l with
  | nil => rfl
  | cons c cs ih =>
    have hc := h c (List.mem_cons_self _ _)
    simp only [dropNonSpace, hc, if_false, Bool.false_eq_true]
    exact ih (fun d hd => h d (List.mem_cons_of_mem _ hd))

theorem pySplitL_all_nonspace {p : List Char} (hne : p ≠ [])
    (hp : ∀ c ∈ p, pyIsSpace c = false) : pySplitL p = [p] := by
  cases p with
  | nil => exact absurd rfl hne
  | cons c p' =>
    have hc := hp c (List.mem_cons_self _ _)
    have hp' : ∀ d ∈ p', pyIsSpace d = false := fun d hd => hp d (List.mem_cons_of_mem _ hd)
    rw [pySplitL_cons_nonspace hc, takeNonSpace_all hp', dropNonSpace_all hp', pySplitL_nil]

theorem takeNonSpace_append_space {p : List Char} (hp : ∀ c ∈ p, pyIsSpace c = false)
    {sp : Char} (hsp : pyIsSpace sp = true) (R : List Char) :
    takeNonSpace (p ++ sp :: R) = p ∧ dropNonSpace (p ++ sp :: R) = sp :: R := by
  induction p with
  | nil => simp [takeNonSpace, dropNonSpace, hsp]
  | cons c p' ih =>
    have hc := hp c (List.mem_cons_self _ _)
    have hp' : ∀ d ∈ p', pyIsSpace d = false := fun d hd => hp d (List.mem_cons_of_mem _ hd)
    obtain ⟨ih1, ih2⟩ := ih hp'
    constructor
    · simp only [List.cons_append, takeNonSpace, hc, if_false, Bool.false_eq_true,
        List.append_eq]
      rw [ih1]
    · simp only [List.cons_append, dropNonSpace, hc, if_false, Bool.false_eq_true,
        List.append_eq]
      exact ih2

theorem pySplitL_append_space_cons {p : List Char} (hne : p ≠ [])
    (hp : ∀ c ∈ p, pyIsSpace c = false) {sp : Char} (hsp : pyIsSpace sp = true)
    (R : List Char) : pySplitL (p ++ sp :: R) = p :: pySplitL R := by
  cases p with
  | nil => exact absurd rfl hne
  | cons c p' =>
    have hc := hp c (List.mem_cons_self _ _)
    have hp' : ∀ d ∈ p', pyIsSpace d = false := fun d hd => hp d (List.mem_cons_of_mem _ hd)
    obtain ⟨h1, h2⟩ := takeNonSpace_append_space hp' hsp R
    rw [List.cons_append, pySplitL_cons_nonspace hc, h1, h2, pySplitL_cons_space hsp]

theorem pySplitL_joinTokens (ts : List (List Char))
    (h : ∀ t ∈ ts, t ≠ [] ∧ ∀ c ∈ t, pyIsSpace c = false) :
    pySplitL (joinTokens ts) = ts := by
  induction ts with
  | nil => rfl
  | cons t ts' ih =>
    obtain ⟨hne, hch⟩ := h t (List.mem_cons_self _ _)
    cases ts' with
    | nil => exact pySplitL_all_nonspace hne hch
    | cons t₂ ts'' =>
      show pySplitL (t ++ ' ' :: joinTokens (t₂ :: ts'')) = _
      rw [pySplitL_append_space_cons hne hch (by decide) _,
        ih (fun u hu => h u (List.mem_cons_of_mem _ hu))]

theorem stripURLsGo_fuel :
    ∀ f₁ f₂ (l : List Char), l.length ≤ f₁ → l.length ≤ f₂ →
      stripURLsGo f₁ l = stripURLsGo f₂ l := by
  intro f₁
  induction f₁ with
  | zero =>
    intro f₂ l h1 _
    rw [List.length_eq_zero.mp (Nat.le_zero.mp h1)]
    cases f₂ <;> rfl
  | succ f ih =>
    intro f₂ l h1 h2
    cases l with
    | nil => cases f₂ <;> rfl
    | cons c cs =>
      cases f₂ with
      | zero => simp at h2
      | succ f₂' =>
        have hcs : cs.length ≤ f := by simpa using h1
        have hcs₂ : cs.length ≤ f₂' := by simpa using h2
        show (if urlStart (c :: cs) then _ else _) = (if urlStart (c :: cs) then _ else _)
        by_cases hu : urlStart (c :: cs)
        · rw [if_pos hu, if_pos hu]
          exact ih f₂' (dropNonSpace cs) ((dropNonSpace_length_le cs).trans hcs)
            ((dropNonSpace_length_le cs).trans hcs₂)
        · rw [if_neg hu, if_neg hu, ih f₂' cs hcs hcs₂]

theorem stripURLs_nil : stripURLs [] = [] := rfl

theorem stripURLs_cons (c : Char) (cs : List Char) :
    stripURLs (c :: cs) =
      if urlStart (c :: cs) then stripURLs (dropNonSpace cs) else c :: stripURLs cs := by
  show (if urlStart (c :: cs) then stripURLsGo cs.length (dropNonSpace cs)
      else c :: stripURLsGo cs.length cs) = _
  by_cases hu : urlStart (c :: cs)
  · rw [if_pos hu, if_pos hu]
    exact stripURLsGo_fuel _ _ _ (dropNonSpace_length_le cs) le_rfl
  · rw [if_neg hu, if_neg hu]
    rfl

theorem urlStart_head_nonspace {c : Char} {cs : List Char}
    (h : urlStart (c :: cs) = true) : pyIsSpace c = false := by
  unfold urlStart at h
  split at h
  · rename_i heq
    injection heq with h1 _
    subst h1
    decide
  · rename_i heq
    injection heq with h1 _
    subst h1
    decide
  · simp at h

theorem stripURLs_cons_space {sp : Char} (hsp : pyIsSpace sp = true) (X : List Char) :
    stripURLs (sp :: X) = sp :: stripURLs X := by
  rw [stripURLs_cons]
  have : urlStart (sp :: X) = false := by
    cases h' : urlStart (sp :: X)
    · rfl
    · rw [urlStart_head_nonspace h'] at hsp
      cases hsp
  rw [this]
  simp

theorem stripURLsGo_subset : ∀ f (l : List Char), ∀ c ∈ stripURLsGo f l, c ∈ l := by
  intro f
  induction f with
  | zero => intro l c hc; simp [stripURLsGo] at hc
  | succ f ih =>
    intro l c hc
    cases l with
    | nil => simp [stripURLsGo] at hc
    | cons a cs =>
      show c ∈ a :: cs
      by_cases hu : urlStart (a :: cs)
      · have : c ∈ dropNonSpace cs := ih _ c (by simpa [stripURLsGo, hu] using hc)
        exact List.mem_cons_of_mem _ ((dropNonSpace_suffix cs).subset this)
      · rcases (by simpa [stripURLsGo, hu] using hc : c = a ∨ c ∈ stripURLsGo f cs) with
          rfl | h
        · exact List.mem_cons_self _ _
        · exact List.mem_cons_of_mem _ (ih cs c h)

theorem stripURLs_subset (l : List Char) : ∀ c ∈ stripURLs l, c ∈ l :=
  stripURLsGo_subset l.length l

/-- URL stripping removes a suffix piece of each whitespace token: the result
decomposes as a prefix of the first token followed by the stripped rest. -/
theorem stripURLs_decomp :
    ∀ n (l : List Char), l.length ≤ n →
      ∃ p, p <+: takeNonSpace l ∧ stripURLs l = p ++ stripURLs (dropNonSpace l) := by
  intro n
  induction n with
  | zero =>
    intro l h
    rw [List.length_eq_zero.mp (Nat.le_zero.mp h)]
    exact ⟨[], List.nil_prefix, rfl⟩
  | succ n ih =>
    intro l h
    cases l with
    | nil => exact ⟨[], List.nil_prefix, rfl⟩
    | cons c cs =>
      have hcs : cs.length ≤ n := by simpa using h
      by_cases hu : urlStart (c :: cs)
      · have hc : pyIsSpace c = false := urlStart_head_nonspace hu
        refine ⟨[], List.nil_prefix, ?_⟩
        rw [stripURLs_cons, if_pos hu]
        simp only [dropNonSpace, hc, if_false, Bool.false_eq_true, List.nil_append]
      · by_cases hc : pyIsSpace c
        · refine ⟨[], List.nil_prefix, ?_⟩
          simp only [dropNonSpace, hc, if_true, List.nil_append]
        · obtain ⟨p', hp', heq⟩ := ih cs hcs
          refine ⟨c :: p', ?_, ?_⟩
          · simp only [takeNonSpace, hc, if_false, Bool.false_eq_true]
            exact (List.prefix_cons_inj c).mpr hp'
          · rw [stripURLs_cons, if_neg hu, heq]
            simp only [dropNonSpace, hc, if_false, Bool.false_eq_true, List.cons_append]

/-- URL stripping never increases the whitespace-token count. -/
theorem tokens_stripURLs_le :
    ∀ n (l : List Char), l.length ≤ n →
      (pySplitL (stripURLs l)).length ≤ (pySplitL l).length := by
  intro n
  induction n with
  | zero =>
    intro l h
    rw [List.length_eq_zero.mp (Nat.le_zero.mp h)]
    exact le_rfl
  | succ n ih =>
    intro l h
    cases l with
    | nil => exact le_rfl
    | cons c cs =>
      have hcs : cs.length ≤ n := by simpa using h
      by_cases hc : pyIsSpace c
      · rw [stripURLs_cons_space hc, pySplitL_cons_space hc, pySplitL_cons_space hc]
        exact ih cs hcs
      · have hcb : pyIsSpace c = false := by simpa using hc
        obtain ⟨p, hp, heq⟩ := stripURLs_decomp (c :: cs).length (c :: cs) le_rfl
        have hdrop : dropNonSpace (c :: cs) = dropNonSpace cs := by
          simp [dropNonSpace, hcb]
        rw [heq, hdrop, pySplitL_cons_nonspace hcb]
        have hpchars : ∀ d ∈ p, pyIsSpace d = false := by
          intro d hd
          exact (takeNonSpace_chars (c :: cs) d (hp.subset hd)).2
        rcases dropNonSpace_shape cs with hD | ⟨sp, D', hD, hsp⟩
        · -- the rest is empty: the result is just the token prefix `p`
          rw [hD, stripURLs_nil, List.append_nil]
          by_cases hpe : p = []
          · subst hpe; simp [pySplitL_nil]
          · rw [pySplitL_all_nonspace hpe hpchars]
            simp
        · -- the rest starts with whitespace
          rw [hD, stripURLs_cons_space hsp]
          have hlen : D'.length ≤ n := by
            have h1 : (dropNonSpace cs).length ≤ cs.length := dropNonSpace_length_le cs
            rw [hD] at h1
            simp only [List.length_cons] at h1
            omega
          have hrec : (pySplitL (stripURLs D')).length ≤ (pySplitL D').length := ih D' hlen
          by_cases hpe : p = []
          · subst hpe
            rw [List.nil_append, pySplitL_cons_space hsp, pySplitL_cons_space hsp]
            simp only [List.length_cons]
            omega
          · rw [pySplitL_append_space_cons hpe hpchars hsp, pySplitL_cons_space hsp]
            simp only [List.length_cons]
            omega

/-- Every character of a cleaned text is in the kept character class of
`_clean_text`. -/
theorem cleanTextL_chars (l : List Char) :
    ∀ c ∈ SLMP.cleanTextL l, SLMP.keptTextChar c = true := by
  intro c hc
  unfold SLMP.cleanTextL at hc
  have hjoin : ∀ ts : List (List Char), ∀ c ∈ joinTokens ts, c = ' ' ∨ ∃ t ∈ ts, c ∈ t := by
    intro ts
    induction ts with
    | nil => simp [joinTokens]
    | cons t ts' ihts =>
      intro d hd
      cases ts' with
      | nil => exact Or.inr ⟨t, List.mem_cons_self _ _, hd⟩
      | cons t₂ ts'' =>
        rcases (by simpa [joinTokens] using hd :
            d ∈ t ∨ d = ' ' ∨ d ∈ joinTokens (t₂ :: ts'')) with h | h | h
        · exact Or.inr ⟨t, List.mem_cons_self _ _, h⟩
        · exact Or.inl h
        · rcases ihts d h with h' | ⟨u, hu, hdu⟩
          · exact Or.inl h'
          · exact Or.inr ⟨u, List.mem_cons_of_mem _ hu, hdu⟩
  rcases hjoin _ c hc with rfl | ⟨t, ht, hct⟩
  · decide
  · obtain ⟨_, hchars⟩ := pySplitL_chars _ t ht
    obtain ⟨hmem, hnons⟩ := hchars c hct
    rw [List.mem_map] at hmem
    obtain ⟨c₀, _, hc₀⟩ := hmem
    by_cases hk : SLMP.keptTextChar c₀
    · rw [if_pos hk] at hc₀; rwa [← hc₀]
    · rw [if_neg hk] at hc₀
      rw [← hc₀] at hnons
      simp [pyIsSpace] at hnons

/-- On text whose characters all lie in the kept class, `_clean_text` never
increases the token count. -/
theorem tokens_cleanTextL_le (l : List Char) (h : ∀ c ∈ l, SLMP.keptTextChar c = true) :
    (pySplitL (SLMP.cleanTextL l)).length ≤ (pySplitL l).length := by
  unfold SLMP.cleanTextL
  have hid : (stripURLs l).map (fun c => if SLMP.keptTextChar c then c else ' ')
      = stripURLs l := by
    have hmem : ∀ c ∈ stripURLs l, (if SLMP.keptTextChar c then c else ' ') = c := by
      intro c hc
      rw [if_pos (h c (stripURLs_subset l c hc))]
    calc (stripURLs l).map (fun c => if SLMP.keptTextChar c then c else ' ')
        = (stripURLs l).map id := List.map_congr_left hmem
      _ = stripURLs l := List.map_id _
  rw [hid, pySplitL_joinTokens _ (fun t ht =>
    ⟨(pySplitL_chars _ t ht).1, fun c hc => ((pySplitL_chars _ t ht).2 c hc).2⟩)]
  exact tokens_stripURLs_le l.length l le_rfl

/-- When the (already cleaned) text has fewer than 5 tokens, no sentence can
pass the 5-token minimum of the summary filter, so extraction returns `None`. -/
theorem extract_none_of_few_tokens (s : String) (cat : String)
    (hkept : ∀ c ∈ s.data, SLMP.keptTextChar c = true)
    (h : (pySplitL s.data).length < 5) :
    SLMP._extract_complaint_summary s cat = none := by
  have hsent : ∀ x ∈ SLMP.pySentences (SLMP.cleanTextL s.data),
      SLMP.sizedSentence x = false := by
    intro x hx
    have h1 := pySentences_tokens_le _ x hx
    have h2 := tokens_cleanTextL_le s.data hkept
    have h5 : ¬ (5 ≤ (pySplitL x).length) := by omega
    simp [SLMP.sizedSentence, h5]
  have hdir : (SLMP.pySentences (SLMP.cleanTextL s.data)).filter
      (SLMP.directComplaint (SLMP.lookupKeywords cat)) = [] := by
    apply List.filter_eq_nil_iff.mpr
    intro x hx
    simp [SLMP.directComplaint, SLMP.survivorSentence, hsent x hx]
  have hsur : (SLMP.pySentences (SLMP.cleanTextL s.data)).filter
      (SLMP.survivorSentence (SLMP.lookupKeywords cat)) = [] := by
    apply List.filter_eq_nil_iff.mpr
    intro x hx
    simp [SLMP.survivorSentence, hsent x hx]
  unfold SLMP._extract_complaint_summary
  simp only [hdir, hsur]

/-- Discard law for the lexical processor: a text whose cleaned form has fewer
than 3 whitespace tokens changes nothing. -/
theorem slmp_process_noop_of_few_tokens (st : SLMP.Registry) (t : String)
    (h : (pySplitL (SLMP._clean_text t).data).length < 3) :
    SLMP.process_complaint st t = st := by
  unfold SLMP.process_complaint
  by_cases hemp : SLMP._clean_text t = ""
  · simp [hemp]
  · rw [if_neg hemp,
      extract_none_of_few_tokens (SLMP._clean_text t) _
        (fun c hc => cleanTextL_chars t.data c hc) (by omega)]

/-! ### Registry lemmas for the lexical processor -/

theorem incrKey_length (k : String) (st : SLMP.Registry) :
    (SLMP.incrKey k st).length = st.length := by
  induction st with
  | nil => rfl
  | cons p rest ih =>
    by_cases h : p.1 = k
    · simp [SLMP.incrKey, h]
    · simp [SLMP.incrKey, h, ih]

theorem totalCount_incrKey {k : String} {st : SLMP.Registry}
    (h : k ∈ st.map Prod.fst) :
    SLMP.totalCount (SLMP.incrKey k st) = SLMP.totalCount st + 1 := by
  induction st with
  | nil => simp at h
  | cons p rest ih =>
    by_cases hp : p.1 = k
    · simp [SLMP.incrKey, hp, SLMP.totalCount]
      omega
    · have hk : k ∈ rest.map Prod.fst := by
        rcases List.mem_map.mp h with ⟨q, hq, hq1⟩
        rcases List.mem_cons.mp hq with rfl | hq'
        · exact absurd hq1 hp
        · exact List.mem_map.mpr ⟨q, hq', hq1⟩
      have ih' := ih hk
      simp only [SLMP.incrKey, hp, if_false]
      simp only [SLMP.totalCount, List.map_cons, List.sum_cons] at ih' ⊢
      omega

theorem setKey_length_ge (k : String) (v : Nat) (st : SLMP.Registry) :
    st.length ≤ (SLMP.setKey k v st).length := by
  induction st with
  | nil => simp [SLMP.setKey]
  | cons p rest ih =>
    by_cases h : p.1 = k
    · simp [SLMP.setKey, h]
    · simp only [SLMP.setKey, h, if_false, List.length_cons]
      omega

theorem setKey_fresh {k : String} {st : SLMP.Registry}
    (h : k ∉ st.map Prod.fst) (v : Nat) :
    SLMP.setKey k v st = st ++ [(k, v)] := by
  induction st with
  | nil => rfl
  | cons p rest ih =>
    have hp : ¬ p.1 = k := fun hc => h (List.mem_map.mpr ⟨p, List.mem_cons_self _ _, hc⟩)
    have hr : k ∉ rest.map Prod.fst := fun hc => by
      rcases List.mem_map.mp hc with ⟨q, hq, hq1⟩
      exact h (List.mem_map.mpr ⟨q, List.mem_cons_of_mem _ hq, hq1⟩)
    simp [SLMP.setKey, hp, ih hr]

theorem totalCount_append (a b : SLMP.Registry) :
    SLMP.totalCount (a ++ b) = SLMP.totalCount a + SLMP.totalCount b := by
  simp [SLMP.totalCount]

theorem totalCount_setKey_one_le (k : String) (st : SLMP.Registry) :
    SLMP.totalCount (SLMP.setKey k 1 st) ≤ SLMP.totalCount st + 1 := by
  induction st with
  | nil => simp [SLMP.setKey, SLMP.totalCount]
  | cons p rest ih =>
    by_cases h : p.1 = k
    · simp only [SLMP.setKey, h, if_true, SLMP.totalCount, List.map_cons, List.sum_cons]
      omega
    · simp only [SLMP.setKey, h, if_false, SLMP.totalCount, List.map_cons, List.sum_cons]
      simp only [SLMP.totalCount] at ih
      omega

theorem totalCount_setKey_one_ge {k : String} {st : SLMP.Registry}
    (hlow : ∀ p ∈ st, p.1 = k → p.2 ≤ 1) :
    SLMP.totalCount st ≤ SLMP.totalCount (SLMP.setKey k 1 st) := by
  induction st with
  | nil => simp [SLMP.setKey, SLMP.totalCount]
  | cons p rest ih =>
    by_cases h : p.1 = k
    · have := hlow p (List.mem_cons_self _ _) h
      simp only [SLMP.setKey, h, if_true, SLMP.totalCount, List.map_cons, List.sum_cons]
      omega
    · have := ih (fun q hq hqk => hlow q (List.mem_cons_of_mem _ hq) hqk)
      simp only [SLMP.setKey, h, if_false, SLMP.totalCount, List.map_cons, List.sum_cons]
      simp only [SLMP.totalCount] at this
      omega

theorem setKey_one_mem {k : String} {st : SLMP.Registry} (p : String × Nat)
    (hp : p ∈ st) (hv : p.2 = 1 ∨ p.1 ≠ k) : p ∈ SLMP.setKey k 1 st := by
  induction st with
  | nil => simp at hp
  | cons q rest ih =>
    rcases List.mem_cons.mp hp with rfl | hp'
    · by_cases h : p.1 = k
      · rcases hv with hv | hv
        · simp only [SLMP.setKey, h, if_true]
          have : p = (k, 1) := Prod.ext h hv
          rw [← this]
          exact List.mem_cons_self _ _
        · exact absurd h hv
      · simp only [SLMP.setKey, h, if_false]
        exact List.mem_cons_self _ _
    · by_cases h : q.1 = k
      · simp only [SLMP.setKey, h, if_true]
        exact List.mem_cons_of_mem _ hp'
      · simp only [SLMP.setKey, h, if_false]
        exact List.mem_cons_of_mem _ (ih hp')

theorem findSimilar_some {s : String} :
    ∀ {st : SLMP.Registry} {k}, SLMP.findSimilar s st = some k →
      k ∈ st.map Prod.fst ∧ SLMP.is_similar_complaint s k = true := by
  intro st
  induction st with
  | nil => intro k h; simp [SLMP.findSimilar] at h
  | cons p rest ih =>
    intro k h
    by_cases hp : SLMP.is_similar_complaint s p.1
    · simp only [SLMP.findSimilar, hp, if_true, Option.some_inj] at h
      subst h
      exact ⟨List.mem_map.mpr ⟨p, List.mem_cons_self _ _, rfl⟩, hp⟩
    · simp only [SLMP.findSimilar, hp, if_false] at h
      obtain ⟨h1, h2⟩ := ih h
      exact ⟨by simpa using Or.inr h1, h2⟩

theorem findSimilar_none {s : String} :
    ∀ {st : SLMP.Registry}, SLMP.findSimilar s st = none →
      ∀ p ∈ st, SLMP.is_similar_complaint s p.1 = false := by
  intro st
  induction st with
  | nil => intro _ p hp; simp at hp
  | cons q rest ih =>
    intro h p hp
    by_cases hq : SLMP.is_similar_complaint s q.1
    · simp [SLMP.findSimilar, hq] at h
    · simp only [SLMP.findSimilar, hq, if_false] at h
      rcases List.mem_cons.mp hp with rfl | hp'
      · simpa using hq
      · exact ih h p hp'

theorem findSimilar_first (s : String) :
    ∀ (pre : SLMP.Registry) (k : String) (c : Nat) (post : SLMP.Registry),
      (∀ p ∈ pre, SLMP.is_similar_complaint s p.1 = false) →
      SLMP.is_similar_complaint s k = true →
      SLMP.findSimilar s (pre ++ (k, c) :: post) = some k := by
  intro pre
  induction pre with
  | nil => intro k c post _ hk; simp [SLMP.findSimilar, hk]
  | cons q pre' ih =>
    intro k c post hpre hk
    have hq := hpre q (List.mem_cons_self _ _)
    simp only [List.cons_append, SLMP.findSimilar, hq, if_false, Bool.false_eq_true]
    exact ih k c post (fun p hp => hpre p (List.mem_cons_of_mem _ hp)) hk

theorem findSimilar_decomp {s : String} :
    ∀ {st : SLMP.Registry} {k}, SLMP.findSimilar s st = some k →
      ∃ pre c post, st = pre ++ (k, c) :: post ∧
        (∀ p ∈ pre, SLMP.is_similar_complaint s p.1 = false) ∧
        SLMP.is_similar_complaint s k = true := by
  intro st
  induction st with
  | nil => intro k h; simp [SLMP.findSimilar] at h
  | cons p rest ih =>
    intro k h
    by_cases hp : SLMP.is_similar_complaint s p.1
    · simp only [SLMP.findSimilar, hp, if_true, Option.some_inj] at h
      exact ⟨[], p.2, rest, by simp [← h], by simp, h ▸ hp⟩
    · simp only [SLMP.findSimilar, hp, if_false] at h
      obtain ⟨pre, c, post, heq, hpre, hk⟩ := ih h
      exact ⟨p :: pre, c, post, by simp [heq], by
        intro q hq
        rcases List.mem_cons.mp hq with rfl | hq'
        · simpa using hp
        · exact hpre q hq', hk⟩

theorem incrKey_append_first {k : String} :
    ∀ (pre : SLMP.Registry) (c : Nat) (post : SLMP.Registry),
      (∀ p ∈ pre, p.1 ≠ k) →
      SLMP.incrKey k (pre ++ (k, c) :: post) = pre ++ (k, c + 1) :: post := by
  intro pre
  induction pre with
  | nil => intro c post _; simp [SLMP.incrKey]
  | cons q pre' ih =>
    intro c post hpre
    have hq := hpre q (List.mem_cons_self _ _)
    simp only [List.cons_append, SLMP.incrKey, hq, if_false, List.append_eq]
    rw [ih c post (fun p hp => hpre p (List.mem_cons_of_mem _ hp))]

theorem filter_length_mono {α : Type} (l : List α) (p q : α → Bool)
    (h : ∀ a ∈ l, p a = true → q a = true) :
    (l.filter p).length ≤ (l.filter q).length := by
  induction l with
  | nil => simp
  | cons a l' ih =>
    have ih' := ih (fun b hb => h b (List.mem_cons_of_mem _ hb))
    by_cases hpa : p a
    · have hqa := h a (List.mem_cons_self _ _) hpa
      simp only [List.filter_cons, hpa, hqa, if_true, List.length_cons]
      omega
    · simp only [List.filter_cons, hpa, if_false, Bool.false_eq_true]
      by_cases hqa : q a
      · simp only [hqa, if_true, List.length_cons]
        omega
      · simp only [hqa, if_false, Bool.false_eq_true]
        exact ih'

/-- A registry key that some candidate lexically matches also matches itself:
the keyword overlap of `(s, k)` is contained in the overlap of `(k, k)`. -/
theorem is_similar_self_of_similar {s k : String}
    (h : SLMP.is_similar_complaint s k = true) :
    SLMP.is_similar_complaint k k = true := by
  simp only [SLMP.is_similar_complaint] at h ⊢
  rw [if_neg (by simp)]
  split at h
  · cases h
  · rename_i hcat
    have hcat' : SLMP._get_complaint_category ⟨lowerL s.data⟩ =
        SLMP._get_complaint_category ⟨lowerL k.data⟩ := by
      by_contra hne
      exact hcat hne
    rw [decide_eq_true_eq] at h
    apply decide_eq_true
    rw [← hcat']
    refine le_trans h ?_
    unfold SLMP.matchingKeywords
    apply filter_length_mono
    intro kw _ hkw
    rw [Bool.and_eq_true] at hkw
    rw [Bool.and_eq_true]
    exact ⟨hkw.2, hkw.2⟩

theorem goodReg_incrKey {st : SLMP.Registry} {k : String} (hst : GoodReg st)
    (hsim : SLMP.is_similar_complaint k k = true) : GoodReg (SLMP.incrKey k st) := by
  induction st with
  | nil => intro p hp; simp [SLMP.incrKey] at hp
  | cons q rest ih =>
    intro p hp
    by_cases hq : q.1 = k
    · simp only [SLMP.incrKey, hq, if_true] at hp
      rcases List.mem_cons.mp hp with rfl | hp'
      · exact ⟨by omega, fun _ => hsim⟩
      · exact hst p (List.mem_cons_of_mem _ hp')
    · simp only [SLMP.incrKey, hq, if_false] at hp
      rcases List.mem_cons.mp hp with rfl | hp'
      · exact hst p (List.mem_cons_self _ _)
      · exact ih (fun r hr => hst r (List.mem_cons_of_mem _ hr)) p hp'

theorem goodReg_setKey_one {st : SLMP.Registry} {k : String} (hst : GoodReg st) :
    GoodReg (SLMP.setKey k 1 st) := by
  induction st with
  | nil =>
    intro p hp
    simp only [SLMP.setKey, List.mem_singleton] at hp
    subst hp
    exact ⟨le_rfl, by omega⟩
  | cons q rest ih =>
    intro p hp
    by_cases hq : q.1 = k
    · simp only [SLMP.setKey, hq, if_true] at hp
      rcases List.mem_cons.mp hp with rfl | hp'
      · exact ⟨le_rfl, by omega⟩
      · exact hst p (List.mem_cons_of_mem _ hp')
    · simp only [SLMP.setKey, hq, if_false] at hp
      rcases List.mem_cons.mp hp with rfl | hp'
      · exact hst p (List.mem_cons_self _ _)
      · exact ih (fun r hr => hst r (List.mem_cons_of_mem _ hr)) p hp'

theorem goodReg_process {st : SLMP.Registry} (t : String) (hst : GoodReg st) :
    GoodReg (SLMP.process_complaint st t) := by
  unfold SLMP.process_complaint
  by_cases hemp : SLMP._clean_text t = ""
  · simpa [hemp] using hst
  · rw [if_neg hemp]
    split
    · exact hst
    · split
      · rename_i s hext k hfind
        exact goodReg_incrKey hst (is_similar_self_of_similar (findSimilar_some hfind).2)
      · exact goodReg_setKey_one hst

theorem goodReg_foldl : ∀ (ts : List String) (st : SLMP.Registry), GoodReg st →
    GoodReg (ts.foldl SLMP.process_complaint st) := by
  intro ts
  induction ts with
  | nil => intro st h; exact h
  | cons t ts' ih => intro st h; exact ih _ (goodReg_process t h)

theorem goodReg_run (ts : List String) : GoodReg (SLMP.runProcessor ts) :=
  goodReg_foldl ts [] (by intro p hp; simp at hp)

/-- Single-ingestion bounds for the lexical processor: the entry count never
decreases, the total count never decreases, and the total count grows by at
most 1 (exactly 0 on a discarded text). -/
theorem slmp_step_bounds (st : SLMP.Registry) (t : String) (hst : GoodReg st) :
    st.length ≤ (SLMP.process_complaint st t).length ∧
    SLMP.totalCount st ≤ SLMP.totalCount (SLMP.process_complaint st t) ∧
    SLMP.totalCount (SLMP.process_complaint st t) ≤
      SLMP.totalCount st + (if SLMP.accepted t = true then 1 else 0) := by
  unfold SLMP.process_complaint
  by_cases hemp : SLMP._clean_text t = ""
  · simp [hemp]
  · rw [if_neg hemp]
    split
    · rename_i hext
      have hacc : SLMP.accepted t = false := by
        simp [SLMP.accepted, hext]
      simp [hacc]
    · rename_i s hext
      have hacc : SLMP.accepted t = true := by
        simp [SLMP.accepted, hemp, hext]
      split
      · rename_i k hfind
        have hk := (findSimilar_some hfind).1
        refine ⟨le_of_eq (incrKey_length k st).symm, ?_, ?_⟩
        · rw [totalCount_incrKey hk]; omega
        · rw [totalCount_incrKey hk, hacc, if_pos rfl]
      · rename_i hfind
        have hlow : ∀ p ∈ st, p.1 = s → p.2 ≤ 1 := by
          intro p hp hps
          by_contra hgt
          have h2 : 2 ≤ p.2 := by omega
          have hsim := (hst p hp).2 h2
          rw [hps] at hsim
          have := findSimilar_none hfind p hp
          rw [hps] at this
          rw [this] at hsim
          cases hsim
        refine ⟨setKey_length_ge s 1 st, totalCount_setKey_one_ge hlow, ?_⟩
        rw [hacc, if_pos rfl]
        exact totalCount_setKey_one_le s st

theorem acceptedCount_cons (t : String) (ts : List String) :
    SLMP.acceptedCount (t :: ts) =
      (if SLMP.accepted t = true then 1 else 0) + SLMP.acceptedCount ts := by
  unfold SLMP.acceptedCount
  rw [List.filter_cons]
  by_cases h : SLMP.accepted t
  · simp [h, Nat.add_comm]
  · simp [h]

theorem slmp_foldl_total_le : ∀ (ts : List String) (st : SLMP.Registry), GoodReg st →
    SLMP.totalCount (ts.foldl SLMP.process_complaint st) ≤
      SLMP.totalCount st + SLMP.acceptedCount ts := by
  intro ts
  induction ts with
  | nil => intro st _; simp [SLMP.acceptedCount]
  | cons t ts' ih =>
    intro st hst
    have h1 := ih (SLMP.process_complaint st t) (goodReg_process t hst)
    have h2 := (slmp_step_bounds st t hst).2.2
    rw [List.foldl_cons, acceptedCount_cons]
    omega

/-! ### Lemmas for the embedding processor -/

theorem dotQ_self_nonneg (v : List ℚ) : 0 ≤ LMP.dotQ v v := by
  unfold LMP.dotQ
  induction v with
  | nil => simp
  | cons x xs ih =>
    simp only [List.zip_cons_cons, List.map_cons, List.sum_cons]
    have := mul_self_nonneg x
    nlinarith [ih]

theorem cosine_self {v : List ℚ} (h : LMP.normSq v ≠ 0) :
    LMP.cosine_similarity v v = some 1 := by
  unfold LMP.cosine_similarity
  rw [if_neg (by simpa using h)]
  congr 1
  have hpos : (0 : ℝ) ≤ (LMP.normSq v : ℝ) := by
    exact_mod_cast dotQ_self_nonneg v
  rw [show LMP.dotQ v v = LMP.normSq v from rfl,
    Real.mul_self_sqrt hpos, div_self (by exact_mod_cast h)]

theorem bestStep_fst_le (emb : List ℚ) (oracle : String → List ℚ)
    (acc : ℝ × String) (c : String) : acc.1 ≤ (LMP.bestStep emb oracle acc c).1 := by
  unfold LMP.bestStep
  rcases LMP.cosine_similarity emb (oracle c) with _ | x
  · exact le_rfl
  · by_cases h : acc.1 < x
    · simp only [h, if_true]
      exact le_of_lt h
    · simp only [h, if_false]
      exact le_rfl

theorem foldBest_fst_le (emb : List ℚ) (oracle : String → List ℚ) :
    ∀ (es : List String) (acc : ℝ × String),
      acc.1 ≤ (es.foldl (LMP.bestStep emb oracle) acc).1 := by
  intro es
  induction es with
  | nil => intro acc; exact le_rfl
  | cons e es' ih =>
    intro acc
    exact (bestStep_fst_le emb oracle acc e).trans (ih (LMP.bestStep emb oracle acc e))

theorem foldBest_ge_elem (emb : List ℚ) (oracle : String → List ℚ) :
    ∀ (es : List String) (acc : ℝ × String) (c : String) (x : ℝ),
      c ∈ es → LMP.cosine_similarity emb (oracle c) = some x →
      x ≤ (es.foldl (LMP.bestStep emb oracle) acc).1 := by
  intro es
  induction es with
  | nil => intro acc c x hc; simp at hc
  | cons e es' ih =>
    intro acc c x hc hx
    rcases List.mem_cons.mp hc with rfl | hc'
    · have hstep : x ≤ (LMP.bestStep emb oracle acc c).1 := by
        unfold LMP.bestStep
        rw [hx]
        by_cases h : acc.1 < x
        · simp [h]
        · simp only [h, if_false]
          exact le_of_not_lt h
      exact hstep.trans (foldBest_fst_le emb oracle es' _)
    · exact ih _ c x hc' hx

theorem foldBest_result (emb : List ℚ) (oracle : String → List ℚ) :
    ∀ (es : List String) (acc : ℝ × String),
      es.foldl (LMP.bestStep emb oracle) acc = acc ∨
        (es.foldl (LMP.bestStep emb oracle) acc).2 ∈ es := by
  intro es
  induction es with
  | nil => intro acc; exact Or.inl rfl
  | cons e es' ih =>
    intro acc
    have hstep : LMP.bestStep emb oracle acc e = acc ∨
        LMP.bestStep emb oracle acc e = ((LMP.bestStep emb oracle acc e).1, e) := by
      unfold LMP.bestStep
      rcases LMP.cosine_similarity emb (oracle e) with _ | x
      · exact Or.inl rfl
      · by_cases h : acc.1 < x
        · simp [h]
        · simp [h]
    rcases ih (LMP.bestStep emb oracle acc e) with heq | hmem
    · rw [List.foldl_cons, heq]
      rcases hstep with h | h
      · exact Or.inl h
      · right
        rw [h]
        exact List.mem_cons_self _ _
    · exact Or.inr (List.mem_cons_of_mem _ hmem)

/-- If the candidate already is a registry key (and its embedding is nonzero),
the similarity scan matches: self-similarity is 1 ≥ 0.85. -/
theorem lm_similar_of_mem {oracle : String → List ℚ} {newC : String}
    {es : List String} (hmem : newC ∈ es) (h : LMP.normSq (oracle newC) ≠ 0) :
    (LMP.is_similar_complaint oracle newC es).1 = true := by
  unfold LMP.is_similar_complaint
  rw [if_neg (List.ne_nil_of_mem hmem)]
  have h1 : (1 : ℝ) ≤ (es.foldl (LMP.bestStep (oracle newC) oracle) (-1, "")).1 :=
    foldBest_ge_elem _ _ es _ newC 1 hmem (cosine_self h)
  exact decide_eq_true (by linarith : (0.85 : ℝ) ≤ _)

theorem lm_best_mem {oracle : String → List ℚ} {newC : String} {es : List String}
    (htrue : (LMP.is_similar_complaint oracle newC es).1 = true) :
    (LMP.is_similar_complaint oracle newC es).2 ∈ es := by
  unfold LMP.is_similar_complaint at htrue ⊢
  by_cases hne : es = []
  · rw [if_pos hne] at htrue
    cases htrue
  · rw [if_neg hne] at htrue ⊢
    rcases foldBest_result (oracle newC) oracle es (-1, "") with heq | hmem
    · exfalso
      rw [heq] at htrue
      have : (0.85 : ℝ) ≤ (-1 : ℝ) := of_decide_eq_true htrue
      linarith
    · exact hmem

/-- Single-ingestion accounting for the embedding processor, assuming the
provider returns a nonzero embedding for every text. -/
theorem lmp_step_bounds (oracle : String → List ℚ)
    (hor : ∀ u, LMP.normSq (oracle u) ≠ 0) (st : SLMP.Registry) (t : String) :
    st.length ≤ (LMP.process_complaint oracle st t).length ∧
    SLMP.totalCount (LMP.process_complaint oracle st t) =
      SLMP.totalCount st + (if LMP.accepted t = true then 1 else 0) := by
  unfold LMP.process_complaint
  by_cases hemp : LMP._clean_complaint t = ""
  · have hacc : LMP.accepted t = false := by simp [LMP.accepted, hemp]
    simp [hemp, hacc]
  · have hacc : LMP.accepted t = true := by simp [LMP.accepted, hemp]
    rw [if_neg hemp, hacc, if_pos rfl]
    by_cases hsim : (LMP.is_similar_complaint oracle (LMP._clean_complaint t)
        (st.map Prod.fst)).1 = true
    · rw [if_pos hsim]
      have hk := lm_best_mem hsim
      exact ⟨le_of_eq (incrKey_length _ st).symm, totalCount_incrKey hk⟩
    · rw [if_neg hsim]
      have hfresh : LMP._clean_complaint t ∉ st.map Prod.fst := by
        intro hmem
        exact hsim (lm_similar_of_mem hmem (hor _))
      rw [setKey_fresh hfresh 1]
      constructor
      · simp
      · rw [totalCount_append]
        simp [SLMP.totalCount]

theorem lmp_foldl_total (oracle : String → List ℚ)
    (hor : ∀ u, LMP.normSq (oracle u) ≠ 0) :
    ∀ (ts : List String) (st : SLMP.Registry),
      SLMP.totalCount (ts.foldl (LMP.process_complaint oracle) st) =
        SLMP.totalCount st + LMP.acceptedCount ts := by
  intro ts
  induction ts with
  | nil => intro st; simp [LMP.acceptedCount]
  | cons t ts' ih =>
    intro st
    rw [List.foldl_cons, ih]
    have h2 := (lmp_step_bounds oracle hor st t).2
    have hcnt : LMP.acceptedCount (t :: ts') =
        (if LMP.accepted t = true then 1 else 0) + LMP.acceptedCount ts' := by
      unfold LMP.acceptedCount
      rw [List.filter_cons]
      by_cases h : LMP.accepted t
      · simp [h, Nat.add_comm]
      · simp [h]
    rw [h2, hcnt]
    omega

/-- First-argmax characterization of the comparison loop: either no defined
similarity beats the accumulator, or the result is the earliest entry whose
similarity strictly exceeds every earlier one and weakly dominates all. -/
theorem foldBest_argmax (emb : List ℚ) (oracle : String → List ℚ) :
    ∀ (es : List String) (acc : ℝ × String),
      (es.foldl (LMP.bestStep emb oracle) acc = acc ∧
        ∀ c ∈ es, ∀ y, LMP.cosine_similarity emb (oracle c) = some y → y ≤ acc.1) ∨
      (∃ pre cur post, ∃ x : ℝ, es = pre ++ cur :: post ∧
        LMP.cosine_similarity emb (oracle cur) = some x ∧
        es.foldl (LMP.bestStep emb oracle) acc = (x, cur) ∧
        acc.1 < x ∧
        (∀ c ∈ pre, ∀ y, LMP.cosine_similarity emb (oracle c) = some y → y < x) ∧
        (∀ c ∈ es, ∀ y, LMP.cosine_similarity emb (oracle c) = some y → y ≤ x)) := by
  intro es
  induction es with
  | nil => intro acc; exact Or.inl ⟨rfl, by simp⟩
  | cons e es' ih =>
    intro acc
    rw [List.foldl_cons]
    rcases hsim : LMP.cosine_similarity emb (oracle e) with _ | x₀
    · -- nan similarity: the step is a no-op
      have hstep : LMP.bestStep emb oracle acc e = acc := by
        unfold LMP.bestStep; rw [hsim]
      rw [hstep]
      rcases ih acc with ⟨heq, hb⟩ | ⟨pre, cur, post, x, heq, hcur, hfold, hacc, hpre, hall⟩
      · refine Or.inl ⟨heq, ?_⟩
        intro c hc y hy
        rcases List.mem_cons.mp hc with rfl | hc'
        · rw [hsim] at hy; cases hy
        · exact hb c hc' y hy
      · refine Or.inr ⟨e :: pre, cur, post, x, by rw [heq, List.cons_append], hcur, hfold, hacc, ?_, ?_⟩
        · intro c hc y hy
          rcases List.mem_cons.mp hc with rfl | hc'
          · rw [hsim] at hy; cases hy
          · exact hpre c hc' y hy
        · intro c hc y hy
          rcases List.mem_cons.mp hc with rfl | hc'
          · rw [hsim] at hy; cases hy
          · exact hall c (heq ▸ hc') y hy
    · by_cases hlt : acc.1 < x₀
      · have hstep : LMP.bestStep emb oracle acc e = (x₀, e) := by
          unfold LMP.bestStep; rw [hsim]; simp [hlt]
        rw [hstep]
        rcases ih (x₀, e) with ⟨heq, hb⟩ | ⟨pre, cur, post, x, heq, hcur, hfold, hacc, hpre, hall⟩
        · refine Or.inr ⟨[], e, es', x₀, rfl, hsim, by rw [heq], hlt, by simp, ?_⟩
          intro c hc y hy
          rcases List.mem_cons.mp hc with rfl | hc'
          · rw [hsim] at hy; injection hy with hy; rw [← hy]
          · exact hb c hc' y hy
        · refine Or.inr ⟨e :: pre, cur, post, x, by rw [heq, List.cons_append], hcur, hfold,
            lt_trans hlt hacc, ?_, ?_⟩
          · intro c hc y hy
            rcases List.mem_cons.mp hc with rfl | hc'
            · rw [hsim] at hy; injection hy with hy; rw [← hy]; exact hacc
            · exact hpre c hc' y hy
          · intro c hc y hy
            rcases List.mem_cons.mp hc with rfl | hc'
            · rw [hsim] at hy; injection hy with hy; rw [← hy]; exact le_of_lt hacc
            · exact hall c (heq ▸ hc') y hy
      · have hstep : LMP.bestStep emb oracle acc e = acc := by
          unfold LMP.bestStep; rw [hsim]; simp [hlt]
        rw [hstep]
        rcases ih acc with ⟨heq, hb⟩ | ⟨pre, cur, post, x, heq, hcur, hfold, hacc, hpre, hall⟩
        · refine Or.inl ⟨heq, ?_⟩
          intro c hc y hy
          rcases List.mem_cons.mp hc with rfl | hc'
          · rw [hsim] at hy; injection hy with hy; rw [← hy]; exact le_of_not_lt hlt
          · exact hb c hc' y hy
        · refine Or.inr ⟨e :: pre, cur, post, x, by rw [heq, List.cons_append], hcur, hfold, hacc, ?_, ?_⟩
          · intro c hc y hy
            rcases List.mem_cons.mp hc with rfl | hc'
            · rw [hsim] at hy; injection hy with hy; rw [← hy]
              exact lt_of_le_of_lt (le_of_not_lt hlt) hacc
            · exact hpre c hc' y hy
          · intro c hc y hy
            rcases List.mem_cons.mp hc with rfl | hc'
            · rw [hsim] at hy; injection hy with hy; rw [← hy]
              exact le_of_lt (lt_of_le_of_lt (le_of_not_lt hlt) hacc)
            · exact hall c (heq ▸ hc') y hy

/-- Python `min(xs, key=len)` picks a member of the list. -/
theorem minByLen_mem (s : List Char) (rest : List (List Char)) :
    SLMP.minByLen s rest ∈ s :: rest := by
  unfold SLMP.minByLen
  induction rest generalizing s with
  | nil => simp
  | cons r rest' ih =>
    rw [List.foldl_cons]
    by_cases h : r.length < s.length
    · rw [if_pos h]
      rcases List.mem_cons.mp (ih r) with h' | h'
      · rw [h']; exact List.mem_cons_of_mem _ (List.mem_cons_self _ _)
      · exact List.mem_cons_of_mem _ (List.mem_cons_of_mem _ h')
    · rw [if_neg h]
      rcases List.mem_cons.mp (ih s) with h' | h'
      · rw [h']; exact List.mem_cons_self _ _
      · exact List.mem_cons_of_mem _ (List.mem_cons_of_mem _ h')

/-- Python `min(xs, key=len)` yields a minimal-length element. -/
theorem minByLen_le (s : List Char) (rest : List (List Char)) :
    ∀ x ∈ s :: rest, (SLMP.minByLen s rest).length ≤ x.length := by
  unfold SLMP.minByLen
  induction rest generalizing s with
  | nil =>
    intro x hx
    rcases List.mem_cons.mp hx with rfl | hx'
    · exact le_rfl
    · simp at hx'
  | cons r rest' ih =>
    intro x hx
    rw [List.foldl_cons]
    by_cases h : r.length < s.length
    · rw [if_pos h]
      rcases List.mem_cons.mp hx with rfl | hx'
      · exact (ih r r (List.mem_cons_self _ _)).trans (le_of_lt h)
      · rcases List.mem_cons.mp hx' with rfl | hx''
        · exact ih x x (List.mem_cons_self _ _)
        · exact ih r x (List.mem_cons_of_mem _ hx'')
    · rw [if_neg h]
      rcases List.mem_cons.mp hx with rfl | hx'
      · exact ih x x (List.mem_cons_self _ _)
      · rcases List.mem_cons.mp hx' with rfl | hx''
        · exact (ih s s (List.mem_cons_self _ _)).trans (le_of_not_lt h)
        · exact ih s x (List.mem_cons_of_mem _ hx'')

/-! ### Claim theorems -/

/-- C1 (counterexample): on the cleaned text `"zzz yyy xxx"` every category
scores 0, yet `_get_complaint_category` returns the first-declared category
`"camera"`, not the `"other"` sentinel claimed by the specification. -/
theorem C1_counterexample :
    (SLMP.complaint_keywords.all
      (fun p => SLMP.categoryScore (lowerL "zzz yyy xxx".data) p.2 == 0)) = true ∧
    SLMP._get_complaint_category "zzz yyy xxx" = "camera" ∧
    SLMP._get_complaint_category "zzz yyy xxx" ≠ "other" := by
  refine ⟨by decide, by decide, by decide⟩

/-- C1 (amended): when every category's trigger-keyword score is 0, the
categorizer returns the first-declared category `"camera"` (Python `max` keeps
the first maximal item); the `"other"` sentinel is returned only for an empty
keyword table, which never occurs. -/
theorem C1_amended (text : String)
    (h : ∀ p ∈ SLMP.complaint_keywords, SLMP.categoryScore (lowerL text.data) p.2 = 0) :
    SLMP._get_complaint_category text = "camera" := by
  have h9 : SLMP.complaint_keywords.map
      (fun p => (p.1, SLMP.categoryScore (lowerL text.data) p.2)) =
      SLMP.complaint_keywords.map (fun p => (p.1, 0)) :=
    List.map_congr_left (fun p hp => by rw [h p hp])
  simp only [SLMP._get_complaint_category]
  rw [h9]
  decide

/-- C1 (witness): the amended claim applies to the keyword-free text. -/
theorem C1_amended_witness :
    SLMP._get_complaint_category "zzz yyy xxx" = "camera" :=
  C1_amended "zzz yyy xxx" (by decide)

/-- C3 (counterexample): `_clean_text` performs no 3-token minimum check: the
2-token input `"hi there"` is returned unchanged, not as the empty string. -/
theorem C3_counterexample :
    (pySplitL (SLMP._clean_text "hi there").data).length < 3 ∧
    SLMP._clean_text "hi there" ≠ "" ∧
    SLMP._clean_text "hi there" = "hi there" := by
  refine ⟨by decide, by decide, by decide⟩

/-- C3 (amended): only `_clean_complaint` enforces the 3-token minimum
(returning `''`); `_clean_text` does not.  Nevertheless, ingesting a text
whose cleaned form has fewer than 3 tokens is a no-op for both processors: the
embedding processor discards it at the empty-clean check, and in the lexical
processor no sentence of such a text can reach the 5-token summary minimum,
so no canonical entry is created and no count changes. -/
theorem C3_amended :
    (∀ t : String, (pySplitL (LMP.cleanComplaintCore t.data)).length < 3 →
      LMP._clean_complaint t = "") ∧
    (∀ (st : SLMP.Registry) (t : String),
      (pySplitL (SLMP._clean_text t).data).length < 3 →
      SLMP.process_complaint st t = st) ∧
    (∀ (oracle : String → List ℚ) (st : SLMP.Registry) (t : String),
      (pySplitL (LMP.cleanComplaintCore t.data)).length < 3 →
      LMP.process_complaint oracle st t = st) := by
  refine ⟨?_, ?_, ?_⟩
  · intro t h
    unfold LMP._clean_complaint
    rw [if_pos h]
  · intro st t h
    exact slmp_process_noop_of_few_tokens st t h
  · intro oracle st t h
    have hemp : LMP._clean_complaint t = "" := by
      unfold LMP._clean_complaint
      rw [if_pos h]
    unfold LMP.process_complaint
    rw [if_pos hemp]

/-- C3 (witness): the amended discard law at the concrete 2-token input. -/
theorem C3_amended_witness :
    LMP._clean_complaint "hi there" = "" ∧
    SLMP.process_complaint [] "hi there" = [] ∧
    LMP.process_complaint (fun _ => [1]) [] "hi there" = [] :=
  ⟨C3_amended.1 "hi there" (by decide),
   C3_amended.2.1 [] "hi there" (by decide),
   C3_amended.2.2 (fun _ => [1]) [] "hi there" (by decide)⟩

/-- C5 (counterexample): `cosine_similarity` has no zero-denominator guard:
on a zero vector the float division yields `nan` (modelled `none`), not 0. -/
theorem C5_counterexample :
    LMP.cosine_similarity [0, 0] [3, 4] = none ∧
    LMP.cosine_similarity [0, 0] [3, 4] ≠ some 0 := by
  have h : LMP.cosine_similarity [0, 0] [3, 4] = none := by
    unfold LMP.cosine_similarity
    rw [if_pos (Or.inl (by norm_num [LMP.normSq, LMP.dotQ]))]
  exact ⟨h, by rw [h]; simp⟩

/-- C5 (amended): whenever either vector is zero (zero squared norm), the
unguarded division of `cosine_similarity` produces the undefined float value
`nan` (modelled `none`), never the number 0. -/
theorem C5_amended (a b : List ℚ) (h : LMP.normSq a = 0 ∨ LMP.normSq b = 0) :
    LMP.cosine_similarity a b = none := by
  unfold LMP.cosine_similarity
  rw [if_pos h]

/-- C5 (witness): the amended claim at a concrete zero vector. -/
theorem C5_amended_witness : LMP.cosine_similarity [0] [1] = none :=
  C5_amended [0] [1] (Or.inl (by norm_num [LMP.normSq, LMP.dotQ]))

/-- C10: on the purely positive comment `"Great camera love the photos
today"` no sentence carries a complaint indicator, `_extract_complaint_summary`
returns `None`, and `_summarize_complaint` (via `_generate_concise_summary`'s
unguarded `summary.strip()`) raises instead of returning a summary — modelled
by the `none` result. -/
theorem C10_crash_on_positive_text :
    SLMP._extract_complaint_summary "Great camera love the photos today"
      (SLMP._get_complaint_category "Great camera love the photos today") = none ∧
    SLMP._summarize_complaint "Great camera love the photos today" = none := by
  refine ⟨by decide, by decide⟩

/-- C9: an item whose feature is outside the feature-category vocabulary or
whose feedback type is outside the feedback-type vocabulary is a complete
no-op for the aggregator: the matrix, the per-source tally and the detail
list are all unchanged. -/
theorem C9_unknown_labels_noop (p : FB.Post) (st : FB.AggState) (it : FB.Item)
    (h : it.feature ∉ FB.feature_categories ∨ it.ftype ∉ FB.feedback_types) :
    FB.recordItem p st it = Except.ok st := by
  unfold FB.recordItem
  have hc : (FB.feature_categories.contains it.feature &&
      FB.feedback_types.contains it.ftype) = false := by
    rcases h with h | h
    · have : FB.feature_categories.contains it.feature = false := by simpa using h
      rw [this, Bool.false_and]
    · have : FB.feedback_types.contains it.ftype = false := by simpa using h
      rw [this, Bool.and_false]
  rw [hc]
  simp

/-- C9 (witness): a concrete unknown feature label is a no-op. -/
theorem C9_witness :
    FB.recordItem ⟨"t", "u", "reddit", []⟩
      FB.initState ⟨"zoom", "awesome", "nice"⟩ = Except.ok FB.initState :=
  C9_unknown_labels_noop _ _ _ (Or.inl (by decide))

/-- C7 (code bug): on a single reddit post with one valid classified item the
matrix is incremented, but `feedback_by_source['reddit_post']` raises
`KeyError` (the tally dictionary only has keys reddit/youtube/twitter), the
blanket `except` swallows it, and the detail record is never appended: the
matrix total is 1 while the detail list and the source tallies total 0,
violating the claimed conservation equalities. -/
theorem C7_code_bug_eval :
    FB.validated ⟨"camera", "awesome", "Nice zoom quality"⟩ = true ∧
    FB.matrixTotal (FB.analyze_feedback [⟨"Post: Nothing Phone", "u", "reddit_post",
      [⟨"camera", "awesome", "Nice zoom quality"⟩]⟩]) = 1 ∧
    (FB.analyze_feedback [⟨"Post: Nothing Phone", "u", "reddit_post",
      [⟨"camera", "awesome", "Nice zoom quality"⟩]⟩]).details.length = 0 ∧
    FB.tallyTotal (FB.analyze_feedback [⟨"Post: Nothing Phone", "u", "reddit_post",
      [⟨"camera", "awesome", "Nice zoom quality"⟩]⟩]) = 0 := by
  refine ⟨by decide, by decide, by decide, by decide⟩

/-- C6 (counterexample): on a cleaned 5-token text with no category keyword,
no sentence survives the filter and `_extract_complaint_summary` returns
`None` — there is no templated fallback sentence. -/
theorem C6_counterexample :
    ((SLMP.pySentences (SLMP.cleanTextL "zzz qqq vvv kkk jjj".data)).all
      (fun s => !(SLMP.survivorSentence (SLMP.lookupKeywords "camera") s))) = true ∧
    SLMP._extract_complaint_summary "zzz qqq vvv kkk jjj" "camera" = none := by
  refine ⟨by decide, by decide⟩

/-- C6 (amended): when no sentence of 5-25 tokens contains both a category
keyword and a complaint indicator, extraction returns `None` (no templated
fallback).  When survivors exist, the returned summary is a survivor with a
final period appended: the shortest survivor containing no positive indicator
when any such exists, otherwise the shortest survivor overall. -/
theorem C6_amended (text cat : String) :
    ((∀ s ∈ SLMP.pySentences (SLMP.cleanTextL text.data),
        SLMP.survivorSentence (SLMP.lookupKeywords cat) s = false) →
      SLMP._extract_complaint_summary text cat = none) ∧
    (∀ s₀ ∈ SLMP.pySentences (SLMP.cleanTextL text.data),
      SLMP.survivorSentence (SLMP.lookupKeywords cat) s₀ = true →
      ∃ c, SLMP._extract_complaint_summary text cat = some ⟨c ++ ['.']⟩ ∧
        c ∈ SLMP.pySentences (SLMP.cleanTextL text.data) ∧
        SLMP.survivorSentence (SLMP.lookupKeywords cat) c = true ∧
        ((SLMP.directComplaint (SLMP.lookupKeywords cat) c = true ∧
          ∀ s ∈ SLMP.pySentences (SLMP.cleanTextL text.data),
            SLMP.directComplaint (SLMP.lookupKeywords cat) s = true →
              c.length ≤ s.length) ∨
         ((∀ s ∈ SLMP.pySentences (SLMP.cleanTextL text.data),
            SLMP.directComplaint (SLMP.lookupKeywords cat) s = false) ∧
          ∀ s ∈ SLMP.pySentences (SLMP.cleanTextL text.data),
            SLMP.survivorSentence (SLMP.lookupKeywords cat) s = true →
              c.length ≤ s.length))) := by
  constructor
  · intro hall
    have hdir : (SLMP.pySentences (SLMP.cleanTextL text.data)).filter
        (SLMP.directComplaint (SLMP.lookupKeywords cat)) = [] := by
      apply List.filter_eq_nil_iff.mpr
      intro x hx
      simp [SLMP.directComplaint, hall x hx]
    have hsur : (SLMP.pySentences (SLMP.cleanTextL text.data)).filter
        (SLMP.survivorSentence (SLMP.lookupKeywords cat)) = [] := by
      apply List.filter_eq_nil_iff.mpr
      intro x hx
      simp [hall x hx]
    unfold SLMP._extract_complaint_summary
    simp only [hdir, hsur]
  · intro s₀ hs₀ hsur₀
    unfold SLMP._extract_complaint_summary
    rcases hdir : (SLMP.pySentences (SLMP.cleanTextL text.data)).filter
        (SLMP.directComplaint (SLMP.lookupKeywords cat)) with _ | ⟨d, drest⟩
    · -- first pass empty: the second pass must fire
      rcases hsur : (SLMP.pySentences (SLMP.cleanTextL text.data)).filter
          (SLMP.survivorSentence (SLMP.lookupKeywords cat)) with _ | ⟨v, vrest⟩
      · exfalso
        have := List.filter_eq_nil_iff.mp hsur s₀ hs₀
        rw [hsur₀] at this
        exact this rfl
      · refine ⟨SLMP.minByLen v vrest, by simp only [hdir, hsur], ?_, ?_, Or.inr ⟨?_, ?_⟩⟩
        · have hm := minByLen_mem v vrest
          rw [← hsur] at hm
          exact (List.mem_filter.mp hm).1
        · have hm := minByLen_mem v vrest
          rw [← hsur] at hm
          exact (List.mem_filter.mp hm).2
        · intro s hs
          exact List.filter_eq_nil_iff.mp hdir s hs |> fun hn => by
            cases hd : SLMP.directComplaint (SLMP.lookupKeywords cat) s
            · rfl
            · exact absurd hd hn
        · intro s hs hss
          exact minByLen_le v vrest s (hsur ▸ List.mem_filter.mpr ⟨hs, hss⟩)
    · refine ⟨SLMP.minByLen d drest, by simp only [hdir], ?_, ?_, Or.inl ⟨?_, ?_⟩⟩
      · have hm := minByLen_mem d drest
        rw [← hdir] at hm
        exact (List.mem_filter.mp hm).1
      · have hm := minByLen_mem d drest
        rw [← hdir] at hm
        have hb := (List.mem_filter.mp hm).2
        unfold SLMP.directComplaint at hb
        exact (by simpa using hb : _ ∧ _).1
      · have hm := minByLen_mem d drest
        rw [← hdir] at hm
        exact (List.mem_filter.mp hm).2
      · intro s hs hss
        exact minByLen_le d drest s (hdir ▸ List.mem_filter.mpr ⟨hs, hss⟩)

/-- C6 (witness): both branches of the amended claim at concrete inputs: the
keyword-free text yields `None`, and a one-survivor text yields that survivor. -/
theorem C6_amended_witness :
    SLMP._extract_complaint_summary "zzz qqq vvv kkk jjj" "camera" = none ∧
    ∃ c, SLMP._extract_complaint_summary "camera photo seems bad here" "camera" =
        some ⟨c ++ ['.']⟩ ∧
      c ∈ SLMP.pySentences (SLMP.cleanTextL "camera photo seems bad here".data) ∧
      SLMP.survivorSentence (SLMP.lookupKeywords "camera") c = true ∧
      ((SLMP.directComplaint (SLMP.lookupKeywords "camera") c = true ∧
        ∀ s ∈ SLMP.pySentences (SLMP.cleanTextL "camera photo seems bad here".data),
          SLMP.directComplaint (SLMP.lookupKeywords "camera") s = true →
            c.length ≤ s.length) ∨
       ((∀ s ∈ SLMP.pySentences (SLMP.cleanTextL "camera photo seems bad here".data),
          SLMP.directComplaint (SLMP.lookupKeywords "camera") s = false) ∧
        ∀ s ∈ SLMP.pySentences (SLMP.cleanTextL "camera photo seems bad here".data),
          SLMP.survivorSentence (SLMP.lookupKeywords "camera") s = true →
            c.length ≤ s.length)) :=
  ⟨(C6_amended "zzz qqq vvv kkk jjj" "camera").1 (by decide),
   (C6_amended "camera photo seems bad here" "camera").2
     "camera photo seems bad here".data (by decide) (by decide)⟩

/-- C2 (counterexample): after ingesting two canonical entries (keyword-token
overlaps with the candidate of size 2 and 3 respectively), ingesting the
candidate increments the FIRST matching entry (overlap 2), not the
maximal-overlap entry (overlap 3), whose count stays 1. -/
theorem C2_counterexample :
    SLMP.runProcessor
      ["camera photo seems bad here", "lens sensor selfie seems bad here",
       "camera photo lens sensor selfie seems bad here"] =
      [("camera photo seems bad here.", 2), ("lens sensor selfie seems bad here.", 1)] ∧
    (SLMP.matchingKeywords "camera"
      (lowerL "camera photo lens sensor selfie seems bad here.".data)
      (lowerL "lens sensor selfie seems bad here.".data)).length = 3 ∧
    (SLMP.matchingKeywords "camera"
      (lowerL "camera photo lens sensor selfie seems bad here.".data)
      (lowerL "camera photo seems bad here.".data)).length = 2 ∧
    SLMP.is_similar_complaint "camera photo lens sensor selfie seems bad here."
      "lens sensor selfie seems bad here." = true := by
  refine ⟨by decide, by decide, by decide, by decide⟩

/-- C2 (amended): under the lexical strategy the entry whose count is
incremented is the FIRST-registered entry with same category and keyword
overlap ≥ 2 (registration order, not maximal overlap); and when no entry
reaches the minimum overlap, no existing entry's count changes (every entry
of the reachable registry is preserved). -/
theorem C2_amended :
    (∀ (pre : SLMP.Registry) (k : String) (c : Nat) (post : SLMP.Registry)
        (t s : String),
      SLMP._clean_text t ≠ "" →
      SLMP._extract_complaint_summary (SLMP._clean_text t)
        (SLMP._get_complaint_category (SLMP._clean_text t)) = some s →
      (∀ p ∈ pre, SLMP.is_similar_complaint s p.1 = false) →
      SLMP.is_similar_complaint s k = true →
      SLMP.process_complaint (pre ++ (k, c) :: post) t = pre ++ (k, c + 1) :: post) ∧
    (∀ (ts : List String) (t s : String),
      SLMP._clean_text t ≠ "" →
      SLMP._extract_complaint_summary (SLMP._clean_text t)
        (SLMP._get_complaint_category (SLMP._clean_text t)) = some s →
      (∀ p ∈ SLMP.runProcessor ts, SLMP.is_similar_complaint s p.1 = false) →
      ∀ p ∈ SLMP.runProcessor ts,
        p ∈ SLMP.process_complaint (SLMP.runProcessor ts) t) := by
  constructor
  · intro pre k c post t s hemp hext hpre hk
    unfold SLMP.process_complaint
    rw [if_neg hemp]
    simp only [hext]
    rw [findSimilar_first s pre k c post hpre hk]
    have hkeys : ∀ p ∈ pre, p.1 ≠ k := by
      intro p hp heq
      have := hpre p hp
      rw [heq] at this
      rw [this] at hk
      cases hk
    exact incrKey_append_first pre c post hkeys
  · intro ts t s hemp hext hall p hp
    unfold SLMP.process_complaint
    rw [if_neg hemp]
    simp only [hext]
    rcases hfind : SLMP.findSimilar s (SLMP.runProcessor ts) with _ | k
    · -- no match: the summary is written with count 1, which preserves every
      -- reachable entry (counts of colliding keys are already 1)
      apply setKey_one_mem p hp
      by_cases hps : p.1 = s
      · left
        have hg := goodReg_run ts p hp
        by_contra hne
        have h2 : 2 ≤ p.2 := by omega
        have hsim := hg.2 h2
        rw [hps] at hsim
        have := hall p hp
        rw [hps] at this
        rw [this] at hsim
        cases hsim
      · right; exact hps
    · exfalso
      obtain ⟨hkmem, hksim⟩ := findSimilar_some hfind
      rcases List.mem_map.mp hkmem with ⟨q, hq, hq1⟩
      have := hall q hq
      rw [hq1] at this
      rw [this] at hksim
      cases hksim

/-- C2 (witness): the first-match rule applied to a one-entry registry, and
entry preservation on a no-match ingest of a reachable registry. -/
theorem C2_amended_witness :
    SLMP.process_complaint [("camera photo seems bad here.", 1)]
      "camera photo lens sensor selfie seems bad here" =
      [("camera photo seems bad here.", 2)] ∧
    ∀ p ∈ SLMP.runProcessor ["camera quality seems bad here"],
      p ∈ SLMP.process_complaint (SLMP.runProcessor ["camera quality seems bad here"])
        "battery drain seems bad here" :=
  ⟨C2_amended.1 [] "camera photo seems bad here." 1 []
      "camera photo lens sensor selfie seems bad here"
      "camera photo lens sensor selfie seems bad here."
      (by decide) (by decide) (by simp) (by decide),
   C2_amended.2 ["camera quality seems bad here"] "battery drain seems bad here"
      "battery drain seems bad here." (by decide) (by decide) (by decide)⟩

/-- C8 (counterexample): with three registered entries whose keyword overlaps
with the candidate are 2, 3 and 3 (the two maximal entries tie), the lexical
`process_complaint` increments the FIRST matching entry (overlap 2), not the
earliest entry of the equal-maximal pair. -/
theorem C8_counterexample :
    SLMP.runProcessor
      ["camera photo seems bad here", "lens sensor selfie seems bad here",
       "telephoto periscope ultrawide seems bad here",
       "camera photo lens sensor selfie telephoto periscope ultrawide seems bad here"] =
      [("camera photo seems bad here.", 2), ("lens sensor selfie seems bad here.", 1),
       ("telephoto periscope ultrawide seems bad here.", 1)] ∧
    (SLMP.matchingKeywords "camera"
      (lowerL "camera photo lens sensor selfie telephoto periscope ultrawide seems bad here.".data)
      (lowerL "lens sensor selfie seems bad here.".data)).length = 3 ∧
    (SLMP.matchingKeywords "camera"
      (lowerL "camera photo lens sensor selfie telephoto periscope ultrawide seems bad here.".data)
      (lowerL "telephoto periscope ultrawide seems bad here.".data)).length = 3 ∧
    (SLMP.matchingKeywords "camera"
      (lowerL "camera photo lens sensor selfie telephoto periscope ultrawide seems bad here.".data)
      (lowerL "camera photo seems bad here.".data)).length = 2 := by
  refine ⟨by decide, by decide, by decide, by decide⟩

/-- C8 (amended): the embedding strategy's best match is the first-registered
entry attaining the maximal defined similarity (every earlier entry scores
strictly lower, every entry scores no higher); the lexical strategy instead
increments the first-registered entry with overlap ≥ 2, so the earliest of an
equal-maximal pair receives the increment only when no earlier entry also
matches. -/
theorem C8_amended :
    (∀ (oracle : String → List ℚ) (newC : String) (es : List String),
      (LMP.is_similar_complaint oracle newC es).1 = true →
      ∃ pre cur post, ∃ x : ℝ, es = pre ++ cur :: post ∧
        (LMP.is_similar_complaint oracle newC es).2 = cur ∧
        LMP.cosine_similarity (oracle newC) (oracle cur) = some x ∧
        (0.85 : ℝ) ≤ x ∧
        (∀ c ∈ pre, ∀ y : ℝ,
          LMP.cosine_similarity (oracle newC) (oracle c) = some y → y < x) ∧
        (∀ c ∈ es, ∀ y : ℝ,
          LMP.cosine_similarity (oracle newC) (oracle c) = some y → y ≤ x)) ∧
    (∀ (st : SLMP.Registry) (s k : String),
      SLMP.findSimilar s st = some k →
      ∃ pre c post, st = pre ++ (k, c) :: post ∧
        (∀ p ∈ pre, SLMP.is_similar_complaint s p.1 = false) ∧
        SLMP.is_similar_complaint s k = true) := by
  constructor
  · intro oracle newC es htrue
    unfold LMP.is_similar_complaint at htrue ⊢
    by_cases hne : es = []
    · rw [if_pos hne] at htrue
      cases htrue
    · rw [if_neg hne] at htrue ⊢
      rcases foldBest_argmax (oracle newC) oracle es (-1, "") with
        ⟨heq, _⟩ | ⟨pre, cur, post, x, heqes, hcur, hfold, _, hpre, hall⟩
      · exfalso
        rw [heq] at htrue
        have : (0.85 : ℝ) ≤ (-1 : ℝ) := of_decide_eq_true htrue
        linarith
      · refine ⟨pre, cur, post, x, heqes, by rw [hfold], hcur, ?_, hpre, hall⟩
        have h85 : (0.85 : ℝ) ≤
            (es.foldl (LMP.bestStep (oracle newC) oracle) (-1, "")).1 :=
          of_decide_eq_true htrue
        rw [hfold] at h85
        exact h85
  · intro st s k h
    exact findSimilar_decomp h

/-- C8 (witness): the amended claim at concrete inputs for both strategies. -/
theorem C8_amended_witness :
    (∃ pre cur post, ∃ x : ℝ, (["b c d e f"] : List String) = pre ++ cur :: post ∧
      (LMP.is_similar_complaint (fun _ => [1]) "a b c d e" ["b c d e f"]).2 = cur ∧
      LMP.cosine_similarity ((fun (_ : String) => [(1 : ℚ)]) "a b c d e")
        ((fun (_ : String) => [(1 : ℚ)]) cur) = some x ∧
      (0.85 : ℝ) ≤ x ∧
      (∀ c ∈ pre, ∀ y : ℝ,
        LMP.cosine_similarity ((fun (_ : String) => [(1 : ℚ)]) "a b c d e")
          ((fun (_ : String) => [(1 : ℚ)]) c) = some y → y < x) ∧
      (∀ c ∈ (["b c d e f"] : List String), ∀ y : ℝ,
        LMP.cosine_similarity ((fun (_ : String) => [(1 : ℚ)]) "a b c d e")
          ((fun (_ : String) => [(1 : ℚ)]) c) = some y → y ≤ x)) ∧
    (∃ pre c post,
      ([("camera photo seems bad here.", 1)] : SLMP.Registry) =
        pre ++ ("camera photo seems bad here.", c) :: post ∧
      (∀ p ∈ pre, SLMP.is_similar_complaint "camera photo seems bad here."
        p.1 = false) ∧
      SLMP.is_similar_complaint "camera photo seems bad here."
        "camera photo seems bad here." = true) := by
  constructor
  · apply C8_amended.1 (fun _ => [1]) "a b c d e" ["b c d e f"]
    unfold LMP.is_similar_complaint
    rw [if_neg (by simp)]
    have hcos : LMP.cosine_similarity [(1 : ℚ)] [(1 : ℚ)] = some 1 :=
      cosine_self (by norm_num [LMP.normSq, LMP.dotQ])
    simp only [List.foldl_cons, List.foldl_nil, LMP.bestStep, hcos]
    rw [if_pos (show ((-1 : ℝ), ("" : String)).1 < (1 : ℝ) by norm_num)]
    exact decide_eq_true (by norm_num)
  · apply C8_amended.2 [("camera photo seems bad here.", 1)]
      "camera photo seems bad here." "camera photo seems bad here."
    decide

/-- C4 (counterexample): ingesting the same accepted text twice does NOT give
a count sum of 2: the summary's keyword-token overlap with itself is only 1,
so the re-ingested summary fails to match its own entry and `complaints[s]=1`
overwrites the count — 2 accepted texts, total 1. -/
theorem C4_counterexample :
    SLMP.totalCount (SLMP.runProcessor
      ["camera quality seems bad here", "camera quality seems bad here"]) = 1 ∧
    SLMP.acceptedCount
      ["camera quality seems bad here", "camera quality seems bad here"] = 2 := by
  refine ⟨by decide, by decide⟩

/-- C4 (amended): for each processor and every ingestion sequence, each call
leaves the number of canonical entries and the total of all counts
non-decreasing, and each call increases the total by at most 1 (by 0 on a
discarded text).  The sum of counts after ingesting n non-discarded texts is
at most n for the lexical processor (equality fails when an accepted summary
coincides with an existing single-count entry it cannot lexically re-match),
and exactly n for the embedding processor whenever the provider returns a
nonzero embedding for every text. -/
theorem C4_amended :
    (∀ (pre : List String) (t : String),
      (SLMP.runProcessor pre).length ≤
        (SLMP.process_complaint (SLMP.runProcessor pre) t).length ∧
      SLMP.totalCount (SLMP.runProcessor pre) ≤
        SLMP.totalCount (SLMP.process_complaint (SLMP.runProcessor pre) t) ∧
      SLMP.totalCount (SLMP.process_complaint (SLMP.runProcessor pre) t) ≤
        SLMP.totalCount (SLMP.runProcessor pre) +
          (if SLMP.accepted t = true then 1 else 0)) ∧
    (∀ ts : List String,
      SLMP.totalCount (SLMP.runProcessor ts) ≤ SLMP.acceptedCount ts) ∧
    (∀ oracle : String → List ℚ, (∀ u, LMP.normSq (oracle u) ≠ 0) →
      (∀ (st : SLMP.Registry) (t : String),
        st.length ≤ (LMP.process_complaint oracle st t).length ∧
        SLMP.totalCount (LMP.process_complaint oracle st t) =
          SLMP.totalCount st + (if LMP.accepted t = true then 1 else 0)) ∧
      (∀ ts : List String,
        SLMP.totalCount (LMP.runProcessor oracle ts) = LMP.acceptedCount ts)) := by
  refine ⟨?_, ?_, ?_⟩
  · intro pre t
    exact slmp_step_bounds (SLMP.runProcessor pre) t (goodReg_run pre)
  · intro ts
    have h := slmp_foldl_total_le ts [] (by intro p hp; simp at hp)
    have h0 : SLMP.totalCount ([] : SLMP.Registry) = 0 := by simp [SLMP.totalCount]
    unfold SLMP.runProcessor
    omega
  · intro oracle hor
    refine ⟨fun st t => lmp_step_bounds oracle hor st t, fun ts => ?_⟩
    have h := lmp_foldl_total oracle hor ts []
    have h0 : SLMP.totalCount ([] : SLMP.Registry) = 0 := by simp [SLMP.totalCount]
    unfold LMP.runProcessor
    omega

/-- C4 (witness): the amended accounting at concrete inputs, with a concrete
nonzero embedding provider for the embedding processor. -/
theorem C4_amended_witness :
    SLMP.totalCount (SLMP.runProcessor ["camera photo seems bad here"]) ≤
      SLMP.acceptedCount ["camera photo seems bad here"] ∧
    SLMP.totalCount (LMP.runProcessor (fun _ => [1]) ["aa bb cc"]) =
      LMP.acceptedCount ["aa bb cc"] :=
  ⟨C4_amended.2.1 ["camera photo seems bad here"],
   (C4_amended.2.2 (fun _ => [1])
     (fun _ => by norm_num [LMP.normSq, LMP.dotQ])).2 ["aa bb cc"]⟩
